import Mathlib

/-!
Shallow embedding of the `manuscript` parser (`parser/parser.go`).

The scanner consumes a `List Char` (the buffered reader's remaining runes);
`UnreadRune` is modelled by peeking without consuming.  `io.EOF` and the
`errors.New` failure strings of the Go code are modelled by the `ParseErr`
enumeration below.  Fallible functions return `Except ParseErr`.
-/

set_option maxHeartbeats 4000000

namespace Manuscript

/-- The error outcomes of the Go scanner: `io.EOF` plus one constructor per
`errors.New` message in `parser.go`, named after the message text. -/
inductive ParseErr where
  | eof
  | missingType
  | invalidStoryType
  | missingTitle
  | missingShortTitle
  | missingAuthorName
  | missingAuthorShortName
  | missingAuthorByline
  | missingAuthorAddress
  | missingAuthorPhoneNumber
  | missingAuthorEmail
  | missingAuthorOrgs
  | unrecognizedDirective
  | expectedDirective
  | missingAt
  | invalidDirective
deriving DecidableEq, Repr

/-- `StoryType` from parser.go (Go `iota`: `ShortStory = 0`, `Novel = 1`). -/
inductive StoryType where
  | shortStory
  | novel
deriving DecidableEq, Repr

/-- `DocumentElement`: the Go code uses an empty interface with type switches
over exactly these element types; here it is a sum type. -/
inductive DocumentElement where
  | paragraphBreak
  | sceneBreak
  | prologueBreak (title : String)
  | partBreak (title : String)
  | chapterBreak (title : String)
  | plainText (s : String)
  | italicText (s : String)
  | boldText (s : String)
  | boldItalicText (s : String)
deriving DecidableEq, Repr

/-- `Paragraph` from parser.go. -/
structure Paragraph where
  Text : List DocumentElement := []
deriving DecidableEq, Repr

/-- `Scene` from parser.go. -/
structure Scene where
  EndsWithSceneBreak : Bool := false
  Paragraphs : List Paragraph := []
deriving DecidableEq, Repr

/-- `Chapter` from parser.go. -/
structure Chapter where
  Title : String := ""
  Anonymous : Bool := false
  Prologue : Bool := false
  Number : Nat := 0
  Scenes : List Scene := []
deriving DecidableEq, Repr

/-- `Part` from parser.go. -/
structure Part where
  Title : String := ""
  Anonymous : Bool := false
  Number : Nat := 0
  Chapters : List Chapter := []
deriving DecidableEq, Repr

/-- The anonymous author struct embedded in Go's `Document`. -/
structure AuthorInfo where
  Name : String := ""
  Byline : String := ""
  ShortName : String := ""
  Address : List String := []
  PhoneNumber : String := ""
  EmailAddress : String := ""
  ProfessionalOrgs : List String := []
deriving DecidableEq, Repr

/-- `Document` from parser.go.  The Go field `Type` is spelled `type` here
(`Type` is not a legal Lean field name); defaults are the Go zero values. -/
structure Document where
  type : StoryType := .shortStory
  Title : String := ""
  ShortTitle : String := ""
  Author : AuthorInfo := {}
  Parts : List Part := []
  Text : List DocumentElement := []
deriving DecidableEq, Repr

/-- Decidable equality for `Except`, so concrete parser runs can be checked
by `decide`. -/
instance {ε α : Type} [DecidableEq ε] [DecidableEq α] : DecidableEq (Except ε α) := fun a b =>
  match a, b with
  | .error e1, .error e2 =>
    if h : e1 = e2 then .isTrue (by rw [h]) else .isFalse (fun hx => h (by injection hx))
  | .ok v1, .ok v2 =>
    if h : v1 = v2 then .isTrue (by rw [h]) else .isFalse (fun hx => h (by injection hx))
  | .error _, .ok _ => .isFalse (fun hx => Except.noConfusion hx)
  | .ok _, .error _ => .isFalse (fun hx => Except.noConfusion hx)

/-- Go `unicode.IsSpace`: the Unicode `White_Space` property. -/
def isGoSpace (c : Char) : Bool :=
  c = ' ' || c = '\t' || c = '\n' || c = '\x0b' || c = '\x0c' || c = '\r' ||
  c = '\u0085' || c = '\u00A0' || c = '\u1680' ||
  ('\u2000' ≤ c && c ≤ '\u200A') || c = '\u2028' || c = '\u2029' ||
  c = '\u202F' || c = '\u205F' || c = '\u3000'

/-- Go `strings.TrimSpace`: drop Unicode whitespace from both ends. -/
def trimSpace (l : List Char) : List Char :=
  ((l.dropWhile isGoSpace).reverse.dropWhile isGoSpace).reverse

/-- `eatWhitespace` from parser.go: consume runes while they are whitespace;
hitting end of input inside the loop returns the read error (`io.EOF`). -/
def eatWhitespace : List Char → Except ParseErr (List Char)
  | [] => .error .eof
  | c :: cs => if isGoSpace c then eatWhitespace cs else .ok (c :: cs)

/-- The inline rune-accumulation loop shared by `readPlainText` and
`lexDirective`'s argument reader (parser.go lines 383-393 and 687-705):
accumulate runes until a newline, which is consumed; end of input before the
newline is an error. -/
def readRawArg : List Char → Except ParseErr (List Char × List Char)
  | [] => .error .eof
  | c :: cs =>
    if c = '\n' then .ok ([], cs)
    else
      match readRawArg cs with
      | .error e => .error e
      | .ok (a, r) => .ok (c :: a, r)

/-- The rune-accumulation loop of `readWord` from parser.go: accumulate runes
until whitespace, which is pushed back. -/
def readWordChars : List Char → Except ParseErr (List Char × List Char)
  | [] => .error .eof
  | c :: cs =>
    if isGoSpace c then .ok ([], c :: cs)
    else
      match readWordChars cs with
      | .error e => .error e
      | .ok (t, r) => .ok (c :: t, r)

/-- `readWord` from parser.go: the rune loop followed by Go's
`string(chars)`. -/
def readWord (s : List Char) : Except ParseErr (String × List Char) :=
  match readWordChars s with
  | .error e => .error e
  | .ok (t, r) => .ok (String.mk t, r)

/-- `readPlainText` from parser.go: the rune loop followed by Go's
`string(chars)`. -/
def readPlainText (s : List Char) : Except ParseErr (String × List Char) :=
  match readRawArg s with
  | .error e => .error e
  | .ok (t, r) => .ok (String.mk t, r)

/-- `formatText` from parser.go: wrap the buffered runes in the run type
selected by the current bold/italic toggles. -/
def formatText (text : List Char) (bold italic : Bool) : DocumentElement :=
  if italic && bold then .boldItalicText (String.mk text)
  else if bold then .boldText (String.mk text)
  else if italic then .italicText (String.mk text)
  else .plainText (String.mk text)

/-- `addWhitespace` from parser.go: append one space unless the buffer already
ends with a space. -/
def addWhitespace (text : List Char) : List Char :=
  if text = [] || text.getLast? ≠ some ' ' then text ++ [' '] else text

/-- The outcome of one iteration of `lexParagraph`'s scanning loop
(parser.go lines 412-486): either the loop ends (with the elements emitted so
far and `some rest` for normal termination or `none` for `io.EOF`), or it
continues with updated state. -/
inductive LexStep where
  | done (es : List DocumentElement) (rest : Option (List Char))
  | cont (s buf : List Char) (bold italic : Bool) (es : List DocumentElement)

/-- One iteration of `lexParagraph`'s loop from parser.go: read a rune and
dispatch on newline / whitespace / escape / emphasis delimiter / ordinary
rune, with the one-rune lookahead reads of the newline and `*` branches. -/
def lexParagraphStep : List Char → List Char → Bool → Bool → List DocumentElement → LexStep
  | [], _, _, _, es => .done es none
  | r :: s, buf, bold, italic, es =>
    if r = '\n' then
      match s with
      | [] => .done (if buf = [] then es else es ++ [formatText buf bold italic]) none
      | r2 :: s2 =>
        if r2 = '\n' ∨ r2 = '@' then
          .done ((if buf = [] then es else es ++ [formatText buf bold italic]) ++
            [.paragraphBreak]) (some (r2 :: s2))
        else .cont (r2 :: s2) (addWhitespace buf) bold italic es
    else if isGoSpace r then .cont s (addWhitespace buf) bold italic es
    else if r = '\\' then
      match s with
      | [] => .done es none
      | c :: s' => .cont s' (buf ++ [c]) bold italic es
    else if r = '*' then
      match s with
      | [] => .done es none
      | c :: s' =>
        if c = '*' then
          match s' with
          | [] => .done es none
          | c2 :: s'' =>
            if c2 = '*' then
              .cont s'' [] (!bold) (!italic) (es ++ [formatText buf bold italic])
            else
              .cont s' [] (!bold) italic (es ++ [formatText buf bold italic])
        else .cont s [] bold (!italic) (es ++ [formatText buf bold italic])
    else .cont s (buf ++ [r]) bold italic es

theorem isGoSpace_backslash : isGoSpace '\\' = false := by decide

theorem isGoSpace_star : isGoSpace '*' = false := by decide

theorem lexParagraphStep_cont_length :
    ∀ (s buf : List Char) (b i : Bool) (es : List DocumentElement)
      (s' buf' : List Char) (b' i' : Bool) (es' : List DocumentElement),
      lexParagraphStep s buf b i es = .cont s' buf' b' i' es' → s'.length < s.length := by
  intro s buf b i es s' buf' b' i' es' h
  match s with
  | [] => simp [lexParagraphStep] at h
  | r :: s1 =>
    simp only [lexParagraphStep] at h
    repeat' split at h
    all_goals simp at h
    all_goals obtain ⟨h1, h2, h3, h4, h5⟩ := h
    all_goals rw [← h1]
    all_goals simp only [List.length_cons]
    all_goals omega

theorem lexParagraphStep_done_some_length :
    ∀ (s buf : List Char) (b i : Bool) (es : List DocumentElement)
      (es' : List DocumentElement) (rest : List Char),
      lexParagraphStep s buf b i es = .done es' (some rest) → rest.length < s.length := by
  intro s buf b i es es' rest h
  match s with
  | [] => simp [lexParagraphStep] at h
  | r :: s1 =>
    simp only [lexParagraphStep] at h
    repeat' split at h
    all_goals simp at h
    all_goals obtain ⟨h1, h2⟩ := h
    all_goals rw [← h2]
    all_goals simp only [List.length_cons]
    all_goals omega

/-- `lexParagraph` from parser.go, state-passing form: iterate
`lexParagraphStep` until the loop ends.  Arguments: remaining input, rune
buffer `buf`, the `bold` and `italic` toggles, and the elements emitted so
far (Go appends to `es`).  The result pairs the emitted elements with
`some rest` on normal paragraph termination (Go returns `err = nil`) or
`none` when end of input was reached (Go returns `err = io.EOF`). -/
def lexParagraph (s buf : List Char) (bold italic : Bool) (es : List DocumentElement) :
    List DocumentElement × Option (List Char) :=
  match h : lexParagraphStep s buf bold italic es with
  | .done es' rest => (es', rest)
  | .cont s' buf' bold' italic' es' => lexParagraph s' buf' bold' italic' es'
termination_by s.length
decreasing_by exact lexParagraphStep_cont_length s buf bold italic es s' buf' bold' italic' es' h

theorem lexParagraph_done (s buf : List Char) (b i : Bool) (es : List DocumentElement)
    (es' : List DocumentElement) (rest : Option (List Char))
    (hstep : lexParagraphStep s buf b i es = .done es' rest) :
    lexParagraph s buf b i es = (es', rest) := by
  rw [lexParagraph.eq_def]
  split
  · rename_i es0 rst hd
    rw [hstep] at hd
    simp only [LexStep.done.injEq] at hd
    obtain ⟨h1, h2⟩ := hd
    rw [h1, h2]
  · rename_i s1 buf1 b1 i1 es1 hd
    rw [hstep] at hd
    simp at hd

theorem lexParagraph_cont (s buf : List Char) (b i : Bool) (es : List DocumentElement)
    (s' buf' : List Char) (b' i' : Bool) (es' : List DocumentElement)
    (hstep : lexParagraphStep s buf b i es = .cont s' buf' b' i' es') :
    lexParagraph s buf b i es = lexParagraph s' buf' b' i' es' := by
  rw [lexParagraph.eq_def]
  split
  · rename_i es0 rst hd
    rw [hstep] at hd
    simp at hd
  · rename_i s1 buf1 b1 i1 es1 hd
    rw [hstep] at hd
    simp only [LexStep.cont.injEq] at hd
    obtain ⟨h1, h2, h3, h4, h5⟩ := hd
    rw [h1, h2, h3, h4, h5]

/-! Length/progress lemmas about the scanner primitives, used to justify
termination of the loops that consume via those primitives. -/

theorem eatWhitespace_length :
    ∀ (s t : List Char), eatWhitespace s = .ok t → t.length ≤ s.length := by
  intro s
  induction s with
  | nil => intro t h; simp [eatWhitespace] at h
  | cons c cs ih =>
    intro t h
    simp only [eatWhitespace] at h
    split at h
    · exact Nat.le_succ_of_le (ih t h)
    · injection h with h2
      subst h2
      exact Nat.le_refl _

theorem readRawArg_length :
    ∀ (s a t : List Char), readRawArg s = .ok (a, t) → t.length < s.length := by
  intro s
  induction s with
  | nil => intro a t h; simp [readRawArg] at h
  | cons c cs ih =>
    intro a t h
    simp only [readRawArg] at h
    split at h
    · simp only [Except.ok.injEq, Prod.mk.injEq] at h
      rw [← h.2]
      exact Nat.lt_succ_self _
    · cases hw : readRawArg cs with
      | error e => rw [hw] at h; simp at h
      | ok p =>
        obtain ⟨a', r⟩ := p
        rw [hw] at h
        simp only [Except.ok.injEq, Prod.mk.injEq] at h
        have := ih a' r hw
        rw [← h.2]
        exact Nat.lt_succ_of_lt this

theorem readWordChars_length :
    ∀ (s t r : List Char), readWordChars s = .ok (t, r) → r.length ≤ s.length := by
  intro s
  induction s with
  | nil => intro t r h; simp [readWordChars] at h
  | cons c cs ih =>
    intro t r h
    simp only [readWordChars] at h
    split at h
    · simp only [Except.ok.injEq, Prod.mk.injEq] at h
      rw [← h.2]
    · cases hw : readWordChars cs with
      | error e => rw [hw] at h; simp at h
      | ok p =>
        obtain ⟨t', r'⟩ := p
        rw [hw] at h
        simp only [Except.ok.injEq, Prod.mk.injEq] at h
        have := ih t' r' hw
        rw [← h.2]
        exact Nat.le_succ_of_le this

theorem readWord_length :
    ∀ (s : List Char) (w : String) (t : List Char),
      readWord s = .ok (w, t) → t.length ≤ s.length := by
  intro s w t h
  simp only [readWord] at h
  split at h
  · simp at h
  · rename_i tc r hc
    simp only [Except.ok.injEq, Prod.mk.injEq] at h
    obtain ⟨-, h2⟩ := h
    subst h2
    exact readWordChars_length s tc r hc

theorem readPlainText_length :
    ∀ (s : List Char) (w : String) (t : List Char),
      readPlainText s = .ok (w, t) → t.length < s.length := by
  intro s w t h
  simp only [readPlainText] at h
  split at h
  · simp at h
  · rename_i tc r hc
    simp only [Except.ok.injEq, Prod.mk.injEq] at h
    obtain ⟨-, h2⟩ := h
    subst h2
    exact readRawArg_length s tc r hc

/-- The argument loop of `lexMetadataDirective` (parser.go lines 323-345):
eat whitespace, peek; a `@` ends the argument list (pushed back), otherwise
one line of plain text becomes the next argument.  End of input inside the
loop is the read error. -/
def metaArgs (s : List Char) (args : List String) :
    Except ParseErr (List String × List Char) :=
  match h1 : eatWhitespace s with
  | .error e => .error e
  | .ok [] => .error .eof
  | .ok (r :: tl) =>
    if r = '@' then .ok (args, r :: tl)
    else
      match h2 : readPlainText (r :: tl) with
      | .error e => .error e
      | .ok (arg, s2) => metaArgs s2 (args ++ [arg])
termination_by s.length
decreasing_by
  have hle := eatWhitespace_length s _ h1
  have hlt := readPlainText_length _ arg s2 h2
  simp only [List.length_cons] at hle hlt ⊢
  omega

theorem metaArgs_length :
    ∀ (s : List Char) (args args' : List String) (t : List Char),
      metaArgs s args = .ok (args', t) → t.length ≤ s.length := by
  intro s args
  induction s, args using metaArgs.induct with
  | case1 s args e h1 =>
    intro args' t h
    rw [metaArgs.eq_def] at h
    split at h
    · simp at h
    · simp at h
    · rename_i r' tl' heq
      rw [h1] at heq
      simp at heq
  | case2 s args h1 =>
    intro args' t h
    rw [metaArgs.eq_def] at h
    split at h
    · simp at h
    · simp at h
    · rename_i r' tl' heq
      rw [h1] at heq
      simp at heq
  | case3 s args tl h1 =>
    intro args' t h
    rw [metaArgs.eq_def] at h
    split at h
    · simp at h
    · simp at h
    · rename_i r' tl' heq
      rw [h1] at heq
      simp only [Except.ok.injEq, List.cons.injEq] at heq
      obtain ⟨hr', htl'⟩ := heq
      subst hr'
      subst htl'
      rw [if_pos rfl] at h
      simp only [Except.ok.injEq, Prod.mk.injEq] at h
      rw [← h.2]
      exact eatWhitespace_length s _ h1
  | case4 s args r tl h1 hcond e h2 =>
    intro args' t h
    rw [metaArgs.eq_def] at h
    split at h
    · simp at h
    · simp at h
    · rename_i r' tl' heq
      rw [h1] at heq
      simp only [Except.ok.injEq, List.cons.injEq] at heq
      obtain ⟨hr', htl'⟩ := heq
      subst hr'
      subst htl'
      rw [if_neg hcond] at h
      split at h
      · simp at h
      · rename_i arg' s2' heq2
        rw [h2] at heq2
        simp at heq2
  | case5 s args r tl h1 hcond arg s2 h2 ih =>
    intro args' t h
    rw [metaArgs.eq_def] at h
    split at h
    · simp at h
    · simp at h
    · rename_i r' tl' heq
      rw [h1] at heq
      simp only [Except.ok.injEq, List.cons.injEq] at heq
      obtain ⟨hr', htl'⟩ := heq
      subst hr'
      subst htl'
      rw [if_neg hcond] at h
      split at h
      · simp at h
      · rename_i arg' s2' heq2
        rw [h2] at heq2
        simp only [Except.ok.injEq, Prod.mk.injEq] at heq2
        obtain ⟨ha, hs⟩ := heq2
        subst ha
        subst hs
        have hih := ih args' t h
        have hlt := readPlainText_length _ arg s2 h2
        have hle := eatWhitespace_length s _ h1
        simp only [List.length_cons] at hlt hle
        omega

/-! Step lemmas for `metaArgs`, used to evaluate it on concrete inputs. -/

theorem metaArgs_stop (s : List Char) (args : List String) (tl : List Char)
    (h : eatWhitespace s = .ok ('@' :: tl)) :
    metaArgs s args = .ok (args, '@' :: tl) := by
  rw [metaArgs.eq_def]
  split
  · rename_i e' heq
    rw [h] at heq
    simp at heq
  · rename_i heq
    rw [h] at heq
    simp at heq
  · rename_i r' tl' heq
    rw [h] at heq
    simp only [Except.ok.injEq, List.cons.injEq] at heq
    obtain ⟨hr', htl'⟩ := heq
    subst hr'
    subst htl'
    rw [if_pos rfl]

theorem metaArgs_arg (s : List Char) (args : List String) (r : Char) (tl : List Char)
    (arg : String) (s2 : List Char)
    (h : eatWhitespace s = .ok (r :: tl)) (hr : ¬r = '@')
    (h2 : readPlainText (r :: tl) = .ok (arg, s2)) :
    metaArgs s args = metaArgs s2 (args ++ [arg]) := by
  rw [metaArgs.eq_def]
  split
  · rename_i e' heq
    rw [h] at heq
    simp at heq
  · rename_i heq
    rw [h] at heq
    simp at heq
  · rename_i r' tl' heq
    rw [h] at heq
    simp only [Except.ok.injEq, List.cons.injEq] at heq
    obtain ⟨hr', htl'⟩ := heq
    subst hr'
    subst htl'
    rw [if_neg hr]
    split
    · rename_i e' heq2
      rw [h2] at heq2
      simp at heq2
    · rename_i arg' s2' heq2
      rw [h2] at heq2
      simp only [Except.ok.injEq, Prod.mk.injEq] at heq2
      obtain ⟨ha, hs⟩ := heq2
      subst ha
      subst hs
      rfl

/-- `lexMetadataDirective` from parser.go: whitespace, a mandatory `@`, the
directive name, then (except for `begin` and `scene`) the argument loop. -/
def lexMetadataDirective (s : List Char) :
    Except ParseErr (String × List String × List Char) :=
  match eatWhitespace s with
  | .error e => .error e
  | .ok s1 =>
    match s1 with
    | [] => .error .expectedDirective
    | r :: s2 =>
      if r ≠ '@' then .error .expectedDirective
      else
        match readWord s2 with
        | .error e => .error e
        | .ok (name, s3) =>
          if name = "begin" ∨ name = "scene" then .ok (name, [], s3)
          else
            match metaArgs s3 [] with
            | .error e => .error e
            | .ok (args, s4) => .ok (name, args, s4)

theorem lexMetadataDirective_length :
    ∀ (s : List Char) (name : String) (args : List String) (t : List Char),
      lexMetadataDirective s = .ok (name, args, t) → t.length < s.length := by
  intro s name args t h
  simp only [lexMetadataDirective] at h
  split at h
  · simp at h
  · rename_i s1 heq
    have hle := eatWhitespace_length s s1 heq
    split at h
    · simp at h
    · rename_i r s2
      split at h
      · simp at h
      · split at h
        · simp at h
        · rename_i nm s3 hw
          have h3 := readWord_length s2 nm s3 hw
          split at h
          · simp only [Except.ok.injEq, Prod.mk.injEq] at h
            obtain ⟨-, -, h2⟩ := h
            subst h2
            simp only [List.length_cons] at hle
            omega
          · split at h
            · simp at h
            · rename_i args0 s4 hm
              have h4 := metaArgs_length s3 [] args0 s4 hm
              simp only [Except.ok.injEq, Prod.mk.injEq] at h
              obtain ⟨-, -, h2⟩ := h
              subst h2
              simp only [List.length_cons] at hle
              omega

/-- The body of `lexMetadata`'s `switch` statement (parser.go lines 174-263):
apply one recognized metadata directive to the document under construction,
or fail with the `Unrecognized directive` error. -/
def applyMeta (d : Document) (name : String) (args : List String) :
    Except ParseErr Document :=
  if name = "notes" then .ok d
  else if name = "type" then
    match args with
    | [a] =>
      if a = "shortStory" then .ok { d with type := .shortStory }
      else if a = "novel" then .ok { d with type := .novel }
      else .error .invalidStoryType
    | _ => .error .missingType
  else if name = "title" then
    match args with
    | [a] => .ok { d with Title := a }
    | _ => .error .missingTitle
  else if name = "shortTitle" then
    match args with
    | [a] => .ok { d with ShortTitle := a }
    | _ => .error .missingShortTitle
  else if name = "authorName" then
    match args with
    | [a] => .ok { d with Author := { d.Author with Name := a } }
    | _ => .error .missingAuthorName
  else if name = "authorShortName" then
    match args with
    | [a] => .ok { d with Author := { d.Author with ShortName := a } }
    | _ => .error .missingAuthorShortName
  else if name = "authorByline" then
    match args with
    | [a] => .ok { d with Author := { d.Author with Byline := a } }
    | _ => .error .missingAuthorByline
  else if name = "authorAddress" then
    if args.length < 1 then .error .missingAuthorAddress
    else .ok { d with Author := { d.Author with Address := args } }
  else if name = "authorPhoneNumber" then
    match args with
    | [a] => .ok { d with Author := { d.Author with PhoneNumber := a } }
    | _ => .error .missingAuthorPhoneNumber
  else if name = "authorEmail" then
    match args with
    | [a] => .ok { d with Author := { d.Author with EmailAddress := a } }
    | _ => .error .missingAuthorEmail
  else if name = "authorOrgs" then
    if args.length < 1 then .error .missingAuthorOrgs
    else .ok { d with Author := { d.Author with ProfessionalOrgs := args } }
  else if name = "begin" then .ok d
  else .error .unrecognizedDirective

/-- The loop of `lexMetadata` from parser.go: read metadata directives and
apply them until the `begin` sentinel is read. -/
def lexMetadataLoop (s : List Char) (d : Document) :
    Except ParseErr (Document × List Char) :=
  match h1 : lexMetadataDirective s with
  | .error e => .error e
  | .ok (name, args, rest) =>
    if name = "begin" then .ok (d, rest)
    else
      match applyMeta d name args with
      | .error e => .error e
      | .ok d' => lexMetadataLoop rest d'
termination_by s.length
decreasing_by exact lexMetadataDirective_length s name args rest h1

/-- `lexMetadata` from parser.go: starting from the zero `Document`, consume
metadata directives until `begin`. -/
def lexMetadata (s : List Char) : Except ParseErr (Document × List Char) :=
  lexMetadataLoop s {}

/-! Step lemmas for `lexMetadataLoop`. -/

theorem lexMetadataLoop_begin (s : List Char) (d : Document) (args : List String)
    (rest : List Char)
    (h : lexMetadataDirective s = .ok ("begin", args, rest)) :
    lexMetadataLoop s d = .ok (d, rest) := by
  rw [lexMetadataLoop.eq_def]
  split
  · rename_i e' heq
    rw [h] at heq
    simp at heq
  · rename_i name' args' rest' heq
    rw [h] at heq
    simp only [Except.ok.injEq, Prod.mk.injEq] at heq
    obtain ⟨h1, h2, h3⟩ := heq
    subst h1
    subst h2
    subst h3
    rw [if_pos rfl]

theorem lexMetadataLoop_step (s : List Char) (d : Document) (name : String)
    (args : List String) (rest : List Char) (d' : Document)
    (h : lexMetadataDirective s = .ok (name, args, rest)) (hn : ¬name = "begin")
    (ha : applyMeta d name args = .ok d') :
    lexMetadataLoop s d = lexMetadataLoop rest d' := by
  rw [lexMetadataLoop.eq_def]
  split
  · rename_i e' heq
    rw [h] at heq
    simp at heq
  · rename_i name' args' rest' heq
    rw [h] at heq
    simp only [Except.ok.injEq, Prod.mk.injEq] at heq
    obtain ⟨h1, h2, h3⟩ := heq
    subst h1
    subst h2
    subst h3
    rw [if_neg hn]
    split
    · rename_i e' heq2
      rw [ha] at heq2
      simp at heq2
    · rename_i d'' heq2
      rw [ha] at heq2
      simp only [Except.ok.injEq] at heq2
      subst heq2
      rfl

/-- `lexDirective` from parser.go: a body directive.  `scene` yields a scene
break; `chapter`, `part`, `prologue` and `note` read the rest of the line as
an argument (trimmed); `note` produces no element; any other name is the
`Invalid directive` error. -/
def lexDirective (s : List Char) :
    Except ParseErr (Option DocumentElement × List Char) :=
  match s with
  | [] => .error .missingAt
  | r :: s1 =>
    if r ≠ '@' then .error .missingAt
    else
      match readWord s1 with
      | .error e => .error e
      | .ok (name, s2) =>
        if name = "scene" then .ok (some .sceneBreak, s2)
        else if name = "chapter" ∨ name = "part" ∨ name = "prologue" ∨ name = "note" then
          match readRawArg s2 with
          | .error e => .error e
          | .ok (rawArg, s3) =>
            let arg := String.mk (trimSpace rawArg)
            if name = "chapter" then .ok (some (.chapterBreak arg), s3)
            else if name = "part" then .ok (some (.partBreak arg), s3)
            else if name = "prologue" then .ok (some (.prologueBreak arg), s3)
            else .ok (none, s3)
        else .error .invalidDirective

theorem lexDirective_length :
    ∀ (s : List Char) (oe : Option DocumentElement) (t : List Char),
      lexDirective s = .ok (oe, t) → t.length < s.length := by
  intro s oe t h
  simp only [lexDirective] at h
  split at h
  · simp at h
  · rename_i r s1
    split at h
    · simp at h
    · split at h
      · simp at h
      · rename_i nm s2 hw
        have h2 := readWord_length s1 nm s2 hw
        split at h
        · simp only [Except.ok.injEq, Prod.mk.injEq] at h
          obtain ⟨-, h3⟩ := h
          subst h3
          simp only [List.length_cons]
          omega
        · split at h
          · split at h
            · simp at h
            · rename_i ra s3 hra
              have h3 := readRawArg_length s2 ra s3 hra
              have ht : t = s3 := by
                repeat' split at h
                all_goals simp only [Except.ok.injEq, Prod.mk.injEq] at h
                all_goals exact h.2.symm
              subst ht
              simp only [List.length_cons]
              omega
          · simp at h

/-! The structure builder (parser.go lines 492-633): fold the flat element
sequence into the Part/Chapter/Scene/Paragraph tree. -/

/-- The element kinds on which `parseParagraph` stops without consuming. -/
def isBreak4 : DocumentElement → Bool
  | .sceneBreak | .prologueBreak _ | .chapterBreak _ | .partBreak _ => true
  | _ => false

/-- The element kinds on which `parseScene`/`parseChapter` stop. -/
def isBreak3 : DocumentElement → Bool
  | .prologueBreak _ | .chapterBreak _ | .partBreak _ => true
  | _ => false

/-- Recognizer for `PartBreak` elements. -/
def isPartBreak : DocumentElement → Bool
  | .partBreak _ => true
  | _ => false

theorem isBreak4_iff (e : DocumentElement) :
    isBreak4 e = true ↔ (e = .sceneBreak ∨ isBreak3 e = true) := by
  cases e <;> simp [isBreak4, isBreak3]

/-- `parseParagraph` from parser.go: collect run elements into one paragraph
until a paragraph break (consumed) or a scene/prologue/chapter/part break
(not consumed). -/
def parseParagraph : List DocumentElement → Paragraph × List DocumentElement
  | [] => ({ Text := [] }, [])
  | .paragraphBreak :: rest => ({ Text := [] }, rest)
  | .sceneBreak :: rest => ({ Text := [] }, .sceneBreak :: rest)
  | .prologueBreak ti :: rest => ({ Text := [] }, .prologueBreak ti :: rest)
  | .chapterBreak ti :: rest => ({ Text := [] }, .chapterBreak ti :: rest)
  | .partBreak ti :: rest => ({ Text := [] }, .partBreak ti :: rest)
  | e :: rest =>
    ({ Text := e :: (parseParagraph rest).1.Text }, (parseParagraph rest).2)

theorem parseParagraph_progress : ∀ (t : List DocumentElement),
    (parseParagraph t).2.length < t.length ∨
      ((parseParagraph t).2 = t ∧
        (t = [] ∨ ∃ e t', t = e :: t' ∧ isBreak4 e = true)) := by
  intro t
  induction t with
  | nil => right; simp [parseParagraph]
  | cons e rest ih =>
    cases e with
    | paragraphBreak => left; simp [parseParagraph]
    | sceneBreak => right; exact ⟨by simp [parseParagraph], Or.inr ⟨_, _, rfl, rfl⟩⟩
    | prologueBreak ti =>
      right; exact ⟨by simp [parseParagraph], Or.inr ⟨_, _, rfl, rfl⟩⟩
    | chapterBreak ti =>
      right; exact ⟨by simp [parseParagraph], Or.inr ⟨_, _, rfl, rfl⟩⟩
    | partBreak ti =>
      right; exact ⟨by simp [parseParagraph], Or.inr ⟨_, _, rfl, rfl⟩⟩
    | plainText str =>
      left
      have h2 : (parseParagraph (DocumentElement.plainText str :: rest)).2 =
          (parseParagraph rest).2 := by simp [parseParagraph]
      rw [h2]
      rcases ih with h | ⟨h, -⟩
      · exact Nat.lt_succ_of_lt h
      · rw [h]; exact Nat.lt_succ_self _
    | italicText str =>
      left
      have h2 : (parseParagraph (DocumentElement.italicText str :: rest)).2 =
          (parseParagraph rest).2 := by simp [parseParagraph]
      rw [h2]
      rcases ih with h | ⟨h, -⟩
      · exact Nat.lt_succ_of_lt h
      · rw [h]; exact Nat.lt_succ_self _
    | boldText str =>
      left
      have h2 : (parseParagraph (DocumentElement.boldText str :: rest)).2 =
          (parseParagraph rest).2 := by simp [parseParagraph]
      rw [h2]
      rcases ih with h | ⟨h, -⟩
      · exact Nat.lt_succ_of_lt h
      · rw [h]; exact Nat.lt_succ_self _
    | boldItalicText str =>
      left
      have h2 : (parseParagraph (DocumentElement.boldItalicText str :: rest)).2 =
          (parseParagraph rest).2 := by simp [parseParagraph]
      rw [h2]
      rcases ih with h | ⟨h, -⟩
      · exact Nat.lt_succ_of_lt h
      · rw [h]; exact Nat.lt_succ_self _

theorem parseParagraph_le (t : List DocumentElement) :
    (parseParagraph t).2.length ≤ t.length := by
  rcases parseParagraph_progress t with h | ⟨h, -⟩
  · exact Nat.le_of_lt h
  · rw [h]

/-- The scene loop of `parseScene` from parser.go: collect paragraphs; a
scene break is consumed and sets the flag; a prologue/chapter/part break
stops the scene. -/
def parseSceneParas : List DocumentElement → List Paragraph × Bool × List DocumentElement
  | [] => ([], false, [])
  | e₀ :: t =>
    match hrest : (parseParagraph (e₀ :: t)).2 with
    | [] => ([(parseParagraph (e₀ :: t)).1], false, [])
    | e :: rest' =>
      if e = .sceneBreak then ([(parseParagraph (e₀ :: t)).1], true, rest')
      else if isBreak3 e then ([(parseParagraph (e₀ :: t)).1], false, e :: rest')
      else
        ((parseParagraph (e₀ :: t)).1 :: (parseSceneParas (e :: rest')).1,
         (parseSceneParas (e :: rest')).2.1, (parseSceneParas (e :: rest')).2.2)
termination_by t => t.length
decreasing_by
  rcases parseParagraph_progress (e₀ :: t) with hp | ⟨hp, hp2⟩
  · rw [hrest] at hp
    simpa using hp
  · rw [hrest] at hp
    rcases hp2 with hp2 | ⟨e', t', het, hbr⟩
    · simp at hp2
    · rw [het] at hp
      have he : e = e' := by
        have := hp
        simp only [List.cons.injEq] at this
        exact this.1
      subst he
      rcases (isBreak4_iff e).mp hbr with hb | hb
      · exact absurd hb (by assumption)
      · exact absurd hb (by assumption)

/-- `parseScene` from parser.go. -/
def parseScene (text : List DocumentElement) : Scene × List DocumentElement :=
  ({ EndsWithSceneBreak := (parseSceneParas text).2.1,
     Paragraphs := (parseSceneParas text).1 }, (parseSceneParas text).2.2)

/-! Reduction equations for `parseSceneParas`, convenient for rewriting. -/

theorem parseSceneParas_nil : parseSceneParas [] = ([], false, []) := by
  rw [parseSceneParas.eq_def]

theorem parseSceneParas_stop (e₀ : DocumentElement) (t : List DocumentElement)
    (h : (parseParagraph (e₀ :: t)).2 = []) :
    parseSceneParas (e₀ :: t) = ([(parseParagraph (e₀ :: t)).1], false, []) := by
  rw [parseSceneParas.eq_def]
  split
  · rename_i heq
    simp at heq
  · rename_i e' r' heq
    injection heq with he1 he2
    subst he1
    subst he2
    split
    · rfl
    · rename_i e2 r2 heq2
      rw [h] at heq2
      simp at heq2

theorem parseSceneParas_scene (e₀ : DocumentElement) (t rest' : List DocumentElement)
    (h : (parseParagraph (e₀ :: t)).2 = .sceneBreak :: rest') :
    parseSceneParas (e₀ :: t) = ([(parseParagraph (e₀ :: t)).1], true, rest') := by
  rw [parseSceneParas.eq_def]
  split
  · rename_i heq
    simp at heq
  · rename_i e' r' heq
    injection heq with he1 he2
    subst he1
    subst he2
    split
    · rename_i heq2
      rw [h] at heq2
      simp at heq2
    · rename_i e2 r2 heq2
      rw [h] at heq2
      simp only [List.cons.injEq] at heq2
      obtain ⟨he, hr⟩ := heq2
      subst he
      subst hr
      rw [if_pos rfl]

theorem parseSceneParas_break3 (e₀ : DocumentElement) (t : List DocumentElement)
    (e : DocumentElement) (rest' : List DocumentElement)
    (h : (parseParagraph (e₀ :: t)).2 = e :: rest')
    (hsb : e ≠ .sceneBreak) (hb3 : isBreak3 e = true) :
    parseSceneParas (e₀ :: t) = ([(parseParagraph (e₀ :: t)).1], false, e :: rest') := by
  rw [parseSceneParas.eq_def]
  split
  · rename_i heq
    simp at heq
  · rename_i e' r' heq
    injection heq with he1 he2
    subst he1
    subst he2
    split
    · rename_i heq2
      rw [h] at heq2
      simp at heq2
    · rename_i e2 r2 heq2
      rw [h] at heq2
      simp only [List.cons.injEq] at heq2
      obtain ⟨he, hr⟩ := heq2
      subst he
      subst hr
      rw [if_neg hsb, if_pos hb3]

theorem parseSceneParas_cont (e₀ : DocumentElement) (t : List DocumentElement)
    (e : DocumentElement) (rest' : List DocumentElement)
    (h : (parseParagraph (e₀ :: t)).2 = e :: rest')
    (hsb : e ≠ .sceneBreak) (hb3 : isBreak3 e = false) :
    parseSceneParas (e₀ :: t) =
      ((parseParagraph (e₀ :: t)).1 :: (parseSceneParas (e :: rest')).1,
       (parseSceneParas (e :: rest')).2.1, (parseSceneParas (e :: rest')).2.2) := by
  rw [parseSceneParas.eq_def]
  split
  · rename_i heq
    simp at heq
  · rename_i e' r' heq
    injection heq with he1 he2
    subst he1
    subst he2
    split
    · rename_i heq2
      rw [h] at heq2
      simp at heq2
    · rename_i e2 r2 heq2
      rw [h] at heq2
      simp only [List.cons.injEq] at heq2
      obtain ⟨he, hr⟩ := heq2
      subst he
      subst hr
      rw [if_neg hsb, if_neg (by simp [hb3])]

theorem parseSceneParas_progress : ∀ (t : List DocumentElement),
    (parseSceneParas t).2.2.length < t.length ∨
      ((parseSceneParas t).2.2 = t ∧
        (t = [] ∨ ∃ e t', t = e :: t' ∧ isBreak3 e = true)) := by
  intro t
  induction t using parseSceneParas.induct with
  | case1 => right; simp [parseSceneParas_nil]
  | case2 e₀ t hrest =>
    left
    have h22 : (parseSceneParas (e₀ :: t)).2.2 = [] := by
      rw [parseSceneParas_stop e₀ t hrest]
    rw [h22]
    simp
  | case3 e₀ t rest' hrest =>
    left
    have h22 : (parseSceneParas (e₀ :: t)).2.2 = rest' := by
      rw [parseSceneParas_scene e₀ t rest' hrest]
    rw [h22]
    have hle := parseParagraph_le (e₀ :: t)
    rw [hrest] at hle
    simp only [List.length_cons] at hle ⊢
    omega
  | case4 e₀ t e rest' hrest hsb hb3 =>
    have h22 : (parseSceneParas (e₀ :: t)).2.2 = e :: rest' := by
      rw [parseSceneParas_break3 e₀ t e rest' hrest hsb hb3]
    rw [h22]
    rcases parseParagraph_progress (e₀ :: t) with hp | ⟨hp, -⟩
    · left
      rw [hrest] at hp
      exact hp
    · right
      rw [hrest] at hp
      exact ⟨hp, Or.inr (by rw [← hp]; exact ⟨e, rest', rfl, hb3⟩)⟩
  | case5 e₀ t e rest' hrest hsb hb3 ih =>
    have h22 : (parseSceneParas (e₀ :: t)).2.2 = (parseSceneParas (e :: rest')).2.2 := by
      rw [parseSceneParas_cont e₀ t e rest' hrest hsb (by simpa using hb3)]
    rw [h22]
    left
    have hle := parseParagraph_le (e₀ :: t)
    rw [hrest] at hle
    rcases ih with hi | ⟨hi, hi2⟩
    · simp only [List.length_cons] at hle hi ⊢
      omega
    · rcases hi2 with hi2 | ⟨e', t', het, hbr⟩
      · simp at hi2
      · injection het with h1 h2
        subst h1
        exact absurd hbr hb3

/-- `parseScene` from parser.go. -/
theorem parseScene_progress : ∀ (t : List DocumentElement),
    (parseScene t).2.length < t.length ∨
      ((parseScene t).2 = t ∧
        (t = [] ∨ ∃ e t', t = e :: t' ∧ isBreak3 e = true)) := by
  intro t
  have := parseSceneParas_progress t
  simpa [parseScene] using this

theorem parseScene_le (t : List DocumentElement) :
    (parseScene t).2.length ≤ t.length := by
  rcases parseScene_progress t with h | ⟨h, -⟩
  · exact Nat.le_of_lt h
  · rw [h]

/-- The scene loop of `parseChapter` from parser.go: collect scenes until a
prologue/chapter/part break (or exhaustion). -/
def parseChapterScenes : List DocumentElement → List Scene × List DocumentElement
  | [] => ([], [])
  | e₀ :: t =>
    match hrest : (parseScene (e₀ :: t)).2 with
    | [] => ([(parseScene (e₀ :: t)).1], [])
    | e :: rest' =>
      if isBreak3 e then ([(parseScene (e₀ :: t)).1], e :: rest')
      else
        ((parseScene (e₀ :: t)).1 :: (parseChapterScenes (e :: rest')).1,
         (parseChapterScenes (e :: rest')).2)
termination_by t => t.length
decreasing_by
  rcases parseScene_progress (e₀ :: t) with hp | ⟨hp, hp2⟩
  · rw [hrest] at hp
    simpa using hp
  · rw [hrest] at hp
    rcases hp2 with hp2 | ⟨e', t', het, hbr⟩
    · simp at hp2
    · rw [het] at hp
      have he : e = e' := by
        simp only [List.cons.injEq] at hp
        exact hp.1
      subst he
      exact absurd hbr (by assumption)

theorem parseChapterScenes_nil : parseChapterScenes [] = ([], []) := by
  rw [parseChapterScenes.eq_def]

theorem parseChapterScenes_stop (e₀ : DocumentElement) (t : List DocumentElement)
    (h : (parseScene (e₀ :: t)).2 = []) :
    parseChapterScenes (e₀ :: t) = ([(parseScene (e₀ :: t)).1], []) := by
  rw [parseChapterScenes.eq_def]
  split
  · rename_i heq
    simp at heq
  · rename_i e' r' heq
    injection heq with he1 he2
    subst he1
    subst he2
    split
    · rfl
    · rename_i e2 r2 heq2
      rw [h] at heq2
      simp at heq2

theorem parseChapterScenes_break3 (e₀ : DocumentElement) (t : List DocumentElement)
    (e : DocumentElement) (rest' : List DocumentElement)
    (h : (parseScene (e₀ :: t)).2 = e :: rest') (hb3 : isBreak3 e = true) :
    parseChapterScenes (e₀ :: t) = ([(parseScene (e₀ :: t)).1], e :: rest') := by
  rw [parseChapterScenes.eq_def]
  split
  · rename_i heq
    simp at heq
  · rename_i e' r' heq
    injection heq with he1 he2
    subst he1
    subst he2
    split
    · rename_i heq2
      rw [h] at heq2
      simp at heq2
    · rename_i e2 r2 heq2
      rw [h] at heq2
      simp only [List.cons.injEq] at heq2
      obtain ⟨he, hr⟩ := heq2
      subst he
      subst hr
      rw [if_pos hb3]

theorem parseChapterScenes_cont (e₀ : DocumentElement) (t : List DocumentElement)
    (e : DocumentElement) (rest' : List DocumentElement)
    (h : (parseScene (e₀ :: t)).2 = e :: rest') (hb3 : isBreak3 e = false) :
    parseChapterScenes (e₀ :: t) =
      ((parseScene (e₀ :: t)).1 :: (parseChapterScenes (e :: rest')).1,
       (parseChapterScenes (e :: rest')).2) := by
  rw [parseChapterScenes.eq_def]
  split
  · rename_i heq
    simp at heq
  · rename_i e' r' heq
    injection heq with he1 he2
    subst he1
    subst he2
    split
    · rename_i heq2
      rw [h] at heq2
      simp at heq2
    · rename_i e2 r2 heq2
      rw [h] at heq2
      simp only [List.cons.injEq] at heq2
      obtain ⟨he, hr⟩ := heq2
      subst he
      subst hr
      rw [if_neg (by simp [hb3])]

theorem parseChapterScenes_progress : ∀ (t : List DocumentElement),
    (parseChapterScenes t).2.length < t.length ∨
      ((parseChapterScenes t).2 = t ∧
        (t = [] ∨ ∃ e t', t = e :: t' ∧ isBreak3 e = true)) := by
  intro t
  induction t using parseChapterScenes.induct with
  | case1 => right; simp [parseChapterScenes_nil]
  | case2 e₀ t hrest =>
    left
    have h2 : (parseChapterScenes (e₀ :: t)).2 = [] := by
      rw [parseChapterScenes_stop e₀ t hrest]
    rw [h2]
    simp
  | case3 e₀ t e rest' hrest hb3 =>
    have h2 : (parseChapterScenes (e₀ :: t)).2 = e :: rest' := by
      rw [parseChapterScenes_break3 e₀ t e rest' hrest hb3]
    rw [h2]
    rcases parseScene_progress (e₀ :: t) with hp | ⟨hp, -⟩
    · left
      rw [hrest] at hp
      exact hp
    · right
      rw [hrest] at hp
      exact ⟨hp, Or.inr (by rw [← hp]; exact ⟨e, rest', rfl, hb3⟩)⟩
  | case4 e₀ t e rest' hrest hb3 ih =>
    have h2 : (parseChapterScenes (e₀ :: t)).2 = (parseChapterScenes (e :: rest')).2 := by
      rw [parseChapterScenes_cont e₀ t e rest' hrest (by simpa using hb3)]
    rw [h2]
    left
    have hle := parseScene_le (e₀ :: t)
    rw [hrest] at hle
    rcases ih with hi | ⟨hi, hi2⟩
    · simp only [List.length_cons] at hle hi ⊢
      omega
    · rcases hi2 with hi2 | ⟨e', t', het, hbr⟩
      · simp at hi2
      · injection het with h1 h2'
        subst h1
        exact absurd hbr hb3

theorem parseChapterScenes_le (t : List DocumentElement) :
    (parseChapterScenes t).2.length ≤ t.length := by
  rcases parseChapterScenes_progress t with h | ⟨h, -⟩
  · exact Nat.le_of_lt h
  · rw [h]

/-- `parseChapter` from parser.go: strip a leading prologue/chapter break (if
any) into the title/flags, then collect scenes. -/
def parseChapter (text : List DocumentElement) : Chapter × List DocumentElement :=
  match text with
  | .prologueBreak ti :: rest =>
    ({ Title := ti, Anonymous := false, Prologue := true, Number := 0,
       Scenes := (parseChapterScenes rest).1 }, (parseChapterScenes rest).2)
  | .chapterBreak ti :: rest =>
    ({ Title := ti, Anonymous := false, Prologue := false, Number := 0,
       Scenes := (parseChapterScenes rest).1 }, (parseChapterScenes rest).2)
  | _ =>
    ({ Title := "", Anonymous := true, Prologue := false, Number := 0,
       Scenes := (parseChapterScenes text).1 }, (parseChapterScenes text).2)

theorem parseChapterScenes_noBreak3Head :
    ∀ (u : List DocumentElement), u ≠ [] →
      (∀ e t', u = e :: t' → isBreak3 e = false) →
      (parseChapterScenes u).2.length < u.length := by
  intro u hne hnb
  rcases parseChapterScenes_progress u with hp | ⟨hp, hp2⟩
  · exact hp
  · rcases hp2 with hp2 | ⟨e, t', het, hbr⟩
    · exact absurd hp2 hne
    · rw [hnb e t' het] at hbr
      simp at hbr

theorem parseChapter_progress : ∀ (t : List DocumentElement),
    (parseChapter t).2.length < t.length ∨
      ((parseChapter t).2 = t ∧
        (t = [] ∨ ∃ ti t', t = .partBreak ti :: t')) := by
  intro t
  match t with
  | [] => right; simp [parseChapter, parseChapterScenes_nil]
  | .prologueBreak ti :: rest =>
    left
    have ha : (parseChapter (DocumentElement.prologueBreak ti :: rest)).2 =
        (parseChapterScenes rest).2 := by simp [parseChapter]
    rw [ha]
    have := parseChapterScenes_le rest
    simp only [List.length_cons]
    omega
  | .chapterBreak ti :: rest =>
    left
    have ha : (parseChapter (DocumentElement.chapterBreak ti :: rest)).2 =
        (parseChapterScenes rest).2 := by simp [parseChapter]
    rw [ha]
    have := parseChapterScenes_le rest
    simp only [List.length_cons]
    omega
  | .partBreak ti :: rest =>
    have ha : (parseChapter (DocumentElement.partBreak ti :: rest)).2 =
        (parseChapterScenes (DocumentElement.partBreak ti :: rest)).2 := by
      simp [parseChapter]
    rcases parseChapterScenes_progress (DocumentElement.partBreak ti :: rest) with hp | ⟨hp, -⟩
    · left
      rw [ha]
      exact hp
    · right
      rw [ha, hp]
      exact ⟨rfl, Or.inr ⟨ti, rest, rfl⟩⟩
  | .paragraphBreak :: rest =>
    left
    have ha : (parseChapter (DocumentElement.paragraphBreak :: rest)).2 =
        (parseChapterScenes (DocumentElement.paragraphBreak :: rest)).2 := by
      simp [parseChapter]
    rw [ha]
    refine parseChapterScenes_noBreak3Head _ (by simp) ?_
    intro e t' het
    simp only [List.cons.injEq] at het
    rw [← het.1]
    rfl
  | .sceneBreak :: rest =>
    left
    have ha : (parseChapter (DocumentElement.sceneBreak :: rest)).2 =
        (parseChapterScenes (DocumentElement.sceneBreak :: rest)).2 := by
      simp [parseChapter]
    rw [ha]
    refine parseChapterScenes_noBreak3Head _ (by simp) ?_
    intro e t' het
    simp only [List.cons.injEq] at het
    rw [← het.1]
    rfl
  | .plainText str :: rest =>
    left
    have ha : (parseChapter (DocumentElement.plainText str :: rest)).2 =
        (parseChapterScenes (DocumentElement.plainText str :: rest)).2 := by
      simp [parseChapter]
    rw [ha]
    refine parseChapterScenes_noBreak3Head _ (by simp) ?_
    intro e t' het
    simp only [List.cons.injEq] at het
    rw [← het.1]
    rfl
  | .italicText str :: rest =>
    left
    have ha : (parseChapter (DocumentElement.italicText str :: rest)).2 =
        (parseChapterScenes (DocumentElement.italicText str :: rest)).2 := by
      simp [parseChapter]
    rw [ha]
    refine parseChapterScenes_noBreak3Head _ (by simp) ?_
    intro e t' het
    simp only [List.cons.injEq] at het
    rw [← het.1]
    rfl
  | .boldText str :: rest =>
    left
    have ha : (parseChapter (DocumentElement.boldText str :: rest)).2 =
        (parseChapterScenes (DocumentElement.boldText str :: rest)).2 := by
      simp [parseChapter]
    rw [ha]
    refine parseChapterScenes_noBreak3Head _ (by simp) ?_
    intro e t' het
    simp only [List.cons.injEq] at het
    rw [← het.1]
    rfl
  | .boldItalicText str :: rest =>
    left
    have ha : (parseChapter (DocumentElement.boldItalicText str :: rest)).2 =
        (parseChapterScenes (DocumentElement.boldItalicText str :: rest)).2 := by
      simp [parseChapter]
    rw [ha]
    refine parseChapterScenes_noBreak3Head _ (by simp) ?_
    intro e t' het
    simp only [List.cons.injEq] at het
    rw [← het.1]
    rfl

theorem parseChapter_le (t : List DocumentElement) :
    (parseChapter t).2.length ≤ t.length := by
  rcases parseChapter_progress t with h | ⟨h, -⟩
  · exact Nat.le_of_lt h
  · rw [h]

/-- The chapter-numbering step of `parsePart`'s loop (parser.go lines
517-530): the chapter counter and prologue counter advance only past their
own non-anonymous chapters. -/
def nextChapterNumber (c : Chapter) (cn : Nat) : Nat :=
  if !c.Prologue && !c.Anonymous then cn + 1 else cn

/-- Prologue counterpart of `nextChapterNumber`. -/
def nextPrologueNumber (c : Chapter) (pn : Nat) : Nat :=
  if c.Prologue && !c.Anonymous then pn + 1 else pn

/-- Assignment of `c.Number` in `parsePart`'s loop (parser.go lines 520-530). -/
def numberChapter (c : Chapter) (cn pn : Nat) : Chapter :=
  { c with Number := if c.Prologue then nextPrologueNumber c pn else nextChapterNumber c cn }

/-- The chapter loop of `parsePart` from parser.go: collect numbered chapters
until a part break (or exhaustion). -/
def parsePartChapters : List DocumentElement → Nat → Nat → List Chapter × List DocumentElement
  | [], _, _ => ([], [])
  | e₀ :: t, cn, pn =>
    match hrest : (parseChapter (e₀ :: t)).2 with
    | [] => ([numberChapter (parseChapter (e₀ :: t)).1 cn pn], [])
    | e :: rest' =>
      if isPartBreak e then
        ([numberChapter (parseChapter (e₀ :: t)).1 cn pn], e :: rest')
      else
        (numberChapter (parseChapter (e₀ :: t)).1 cn pn ::
          (parsePartChapters (e :: rest')
            (nextChapterNumber (parseChapter (e₀ :: t)).1 cn)
            (nextPrologueNumber (parseChapter (e₀ :: t)).1 pn)).1,
         (parsePartChapters (e :: rest')
            (nextChapterNumber (parseChapter (e₀ :: t)).1 cn)
            (nextPrologueNumber (parseChapter (e₀ :: t)).1 pn)).2)
termination_by t _ _ => t.length
decreasing_by
  rcases parseChapter_progress (e₀ :: t) with hp | ⟨hp, hp2⟩
  · rw [hrest] at hp
    simpa using hp
  · rw [hrest] at hp
    rcases hp2 with hp2 | ⟨ti, t', het⟩
    · simp at hp2
    · rw [het] at hp
      have he : e = .partBreak ti := by
        simp only [List.cons.injEq] at hp
        exact hp.1
      subst he
      exact absurd (rfl : isPartBreak (.partBreak ti) = true) (by assumption)

theorem parsePartChapters_nil (cn pn : Nat) : parsePartChapters [] cn pn = ([], []) := by
  rw [parsePartChapters.eq_def]

theorem parsePartChapters_stop (e₀ : DocumentElement) (t : List DocumentElement) (cn pn : Nat)
    (h : (parseChapter (e₀ :: t)).2 = []) :
    parsePartChapters (e₀ :: t) cn pn =
      ([numberChapter (parseChapter (e₀ :: t)).1 cn pn], []) := by
  rw [parsePartChapters.eq_def]
  split
  · rename_i heq
    simp at heq
  · rename_i e' r' heq
    injection heq with he1 he2
    subst he1
    subst he2
    split
    · rfl
    · rename_i e2 r2 heq2
      rw [h] at heq2
      simp at heq2

theorem parsePartChapters_break (e₀ : DocumentElement) (t : List DocumentElement)
    (e : DocumentElement) (rest' : List DocumentElement) (cn pn : Nat)
    (h : (parseChapter (e₀ :: t)).2 = e :: rest') (hpb : isPartBreak e = true) :
    parsePartChapters (e₀ :: t) cn pn =
      ([numberChapter (parseChapter (e₀ :: t)).1 cn pn], e :: rest') := by
  rw [parsePartChapters.eq_def]
  split
  · rename_i heq
    simp at heq
  · rename_i e' r' heq
    injection heq with he1 he2
    subst he1
    subst he2
    split
    · rename_i heq2
      rw [h] at heq2
      simp at heq2
    · rename_i e2 r2 heq2
      rw [h] at heq2
      simp only [List.cons.injEq] at heq2
      obtain ⟨he, hr⟩ := heq2
      subst he
      subst hr
      rw [if_pos hpb]

theorem parsePartChapters_cont (e₀ : DocumentElement) (t : List DocumentElement)
    (e : DocumentElement) (rest' : List DocumentElement) (cn pn : Nat)
    (h : (parseChapter (e₀ :: t)).2 = e :: rest') (hpb : isPartBreak e = false) :
    parsePartChapters (e₀ :: t) cn pn =
      (numberChapter (parseChapter (e₀ :: t)).1 cn pn ::
        (parsePartChapters (e :: rest')
          (nextChapterNumber (parseChapter (e₀ :: t)).1 cn)
          (nextPrologueNumber (parseChapter (e₀ :: t)).1 pn)).1,
       (parsePartChapters (e :: rest')
          (nextChapterNumber (parseChapter (e₀ :: t)).1 cn)
          (nextPrologueNumber (parseChapter (e₀ :: t)).1 pn)).2) := by
  rw [parsePartChapters.eq_def]
  split
  · rename_i heq
    simp at heq
  · rename_i e' r' heq
    injection heq with he1 he2
    subst he1
    subst he2
    split
    · rename_i heq2
      rw [h] at heq2
      simp at heq2
    · rename_i e2 r2 heq2
      rw [h] at heq2
      simp only [List.cons.injEq] at heq2
      obtain ⟨he, hr⟩ := heq2
      subst he
      subst hr
      rw [if_neg (by simp [hpb])]

theorem parsePartChapters_progress : ∀ (t : List DocumentElement) (cn pn : Nat),
    (parsePartChapters t cn pn).2.length < t.length ∨
      ((parsePartChapters t cn pn).2 = t ∧
        (t = [] ∨ ∃ ti t', t = .partBreak ti :: t')) := by
  intro t cn pn
  induction t, cn, pn using parsePartChapters.induct with
  | case1 cn pn => right; simp [parsePartChapters_nil]
  | case2 e₀ t cn pn hrest =>
    left
    have h2 : (parsePartChapters (e₀ :: t) cn pn).2 = [] := by
      rw [parsePartChapters_stop e₀ t cn pn hrest]
    rw [h2]
    simp
  | case3 e₀ t cn pn e rest' hrest hpb =>
    have h2 : (parsePartChapters (e₀ :: t) cn pn).2 = e :: rest' := by
      rw [parsePartChapters_break e₀ t e rest' cn pn hrest hpb]
    rw [h2]
    rcases parseChapter_progress (e₀ :: t) with hp | ⟨hp, -⟩
    · left
      rw [hrest] at hp
      exact hp
    · right
      rw [hrest] at hp
      refine ⟨hp, Or.inr ?_⟩
      rw [← hp]
      cases e with
      | partBreak ti => exact ⟨ti, rest', rfl⟩
      | _ => simp [isPartBreak] at hpb
  | case4 e₀ t cn pn e rest' hrest hpb ih =>
    have h2 : (parsePartChapters (e₀ :: t) cn pn).2 =
        (parsePartChapters (e :: rest')
          (nextChapterNumber (parseChapter (e₀ :: t)).1 cn)
          (nextPrologueNumber (parseChapter (e₀ :: t)).1 pn)).2 := by
      rw [parsePartChapters_cont e₀ t e rest' cn pn hrest (by simpa using hpb)]
    rw [h2]
    left
    have hle := parseChapter_le (e₀ :: t)
    rw [hrest] at hle
    rcases ih with hi | ⟨hi, hi2⟩
    · simp only [List.length_cons] at hle hi ⊢
      omega
    · rcases hi2 with hi2 | ⟨ti, t', het⟩
      · simp at hi2
      · simp only [List.cons.injEq] at het
        rcases het with ⟨h1, -⟩
        subst h1
        simp [isPartBreak] at hpb

theorem parsePartChapters_le (t : List DocumentElement) (cn pn : Nat) :
    (parsePartChapters t cn pn).2.length ≤ t.length := by
  rcases parsePartChapters_progress t cn pn with h | ⟨h, -⟩
  · exact Nat.le_of_lt h
  · rw [h]

/-- `parsePart` from parser.go: strip a leading part break (if any) into the
title/anonymity, then collect the numbered chapters (counters start at 0). -/
def parsePart (text : List DocumentElement) : Part × List DocumentElement :=
  match text with
  | .partBreak ti :: rest =>
    ({ Title := ti, Anonymous := false, Number := 0,
       Chapters := (parsePartChapters rest 0 0).1 }, (parsePartChapters rest 0 0).2)
  | _ =>
    ({ Title := "", Anonymous := true, Number := 0,
       Chapters := (parsePartChapters text 0 0).1 }, (parsePartChapters text 0 0).2)

theorem parsePartChapters_noPartHead :
    ∀ (u : List DocumentElement), u ≠ [] → (∀ ti t', u ≠ .partBreak ti :: t') →
      (parsePartChapters u 0 0).2.length < u.length := by
  intro u hne hnb
  rcases parsePartChapters_progress u 0 0 with hp | ⟨hp, hp2⟩
  · exact hp
  · rcases hp2 with hp2 | ⟨ti, t', het⟩
    · exact absurd hp2 hne
    · exact absurd het (hnb ti t')

theorem parsePart_progress : ∀ (e₀ : DocumentElement) (t : List DocumentElement),
    (parsePart (e₀ :: t)).2.length < (e₀ :: t).length := by
  intro e₀ t
  cases e₀ with
  | partBreak ti =>
    have ha : (parsePart (DocumentElement.partBreak ti :: t)).2 =
        (parsePartChapters t 0 0).2 := by simp [parsePart]
    rw [ha]
    have := parsePartChapters_le t 0 0
    simp only [List.length_cons]
    omega
  | paragraphBreak =>
    simp only [parsePart]
    exact parsePartChapters_noPartHead _ (by simp) (by intro ti t' hx; simp at hx)
  | sceneBreak =>
    simp only [parsePart]
    exact parsePartChapters_noPartHead _ (by simp) (by intro ti t' hx; simp at hx)
  | prologueBreak ti =>
    simp only [parsePart]
    exact parsePartChapters_noPartHead _ (by simp) (by intro ti' t' hx; simp at hx)
  | chapterBreak ti =>
    simp only [parsePart]
    exact parsePartChapters_noPartHead _ (by simp) (by intro ti' t' hx; simp at hx)
  | plainText str =>
    simp only [parsePart]
    exact parsePartChapters_noPartHead _ (by simp) (by intro ti t' hx; simp at hx)
  | italicText str =>
    simp only [parsePart]
    exact parsePartChapters_noPartHead _ (by simp) (by intro ti t' hx; simp at hx)
  | boldText str =>
    simp only [parsePart]
    exact parsePartChapters_noPartHead _ (by simp) (by intro ti t' hx; simp at hx)
  | boldItalicText str =>
    simp only [parsePart]
    exact parsePartChapters_noPartHead _ (by simp) (by intro ti t' hx; simp at hx)

/-- The loop of `parseText` from parser.go: the part counter advances only
past non-anonymous parts; each part receives the updated counter as its
sequence number. -/
def nextPartNumber (p : Part) (n : Nat) : Nat :=
  if p.Anonymous then n else n + 1

def parseTextGo : List DocumentElement → Nat → List Part
  | [], _ => []
  | e₀ :: t, n =>
    { (parsePart (e₀ :: t)).1 with
        Number := nextPartNumber (parsePart (e₀ :: t)).1 n } ::
      parseTextGo (parsePart (e₀ :: t)).2 (nextPartNumber (parsePart (e₀ :: t)).1 n)
termination_by t _ => t.length
decreasing_by exact parsePart_progress e₀ t

/-- `parseText` from parser.go: fold the element sequence into numbered
parts, starting the part counter at 0. -/
def parseText (text : List DocumentElement) : List Part :=
  parseTextGo text 0

theorem parseTextGo_nil (n : Nat) : parseTextGo [] n = [] := by
  rw [parseTextGo.eq_def]

theorem parseTextGo_cons (e₀ : DocumentElement) (t : List DocumentElement) (n : Nat) :
    parseTextGo (e₀ :: t) n =
      { (parsePart (e₀ :: t)).1 with
          Number := nextPartNumber (parsePart (e₀ :: t)).1 n } ::
        parseTextGo (parsePart (e₀ :: t)).2 (nextPartNumber (parsePart (e₀ :: t)).1 n) := by
  rw [parseTextGo.eq_def]

/-! Single-step reduction lemmas for `lexParagraph`, one per branch of the
scanner's character dispatch. -/

theorem lexParagraph_nil (buf : List Char) (b i : Bool) (es : List DocumentElement) :
    lexParagraph [] buf b i es = (es, none) :=
  lexParagraph_done [] buf b i es es none rfl

theorem lexParagraph_newline_eof (buf : List Char) (b i : Bool) (es : List DocumentElement) :
    lexParagraph ['\n'] buf b i es =
      (if buf = [] then es else es ++ [formatText buf b i], none) :=
  lexParagraph_done ['\n'] buf b i es _ none (by simp [lexParagraphStep])

theorem lexParagraph_newline_term (r2 : Char) (s2 buf : List Char) (b i : Bool)
    (es : List DocumentElement) (h : r2 = '\n' ∨ r2 = '@') :
    lexParagraph ('\n' :: r2 :: s2) buf b i es =
      ((if buf = [] then es else es ++ [formatText buf b i]) ++ [.paragraphBreak],
        some (r2 :: s2)) :=
  lexParagraph_done ('\n' :: r2 :: s2) buf b i es _ _
    (by simp only [lexParagraphStep, if_true]; rw [if_pos h])

theorem lexParagraph_newline_ws (r2 : Char) (s2 buf : List Char) (b i : Bool)
    (es : List DocumentElement) (h : ¬(r2 = '\n' ∨ r2 = '@')) :
    lexParagraph ('\n' :: r2 :: s2) buf b i es =
      lexParagraph (r2 :: s2) (addWhitespace buf) b i es :=
  lexParagraph_cont ('\n' :: r2 :: s2) buf b i es _ _ _ _ _
    (by simp only [lexParagraphStep, if_true]; rw [if_neg h])

theorem lexParagraph_space (r : Char) (s buf : List Char) (b i : Bool)
    (es : List DocumentElement) (hr : ¬r = '\n') (hsp : isGoSpace r = true) :
    lexParagraph (r :: s) buf b i es = lexParagraph s (addWhitespace buf) b i es :=
  lexParagraph_cont (r :: s) buf b i es _ _ _ _ _
    (by simp only [lexParagraphStep]; rw [if_neg hr, if_pos hsp])

theorem lexParagraph_escape_eof (buf : List Char) (b i : Bool) (es : List DocumentElement) :
    lexParagraph ['\\'] buf b i es = (es, none) :=
  lexParagraph_done ['\\'] buf b i es es none
    (by simp [lexParagraphStep, isGoSpace_backslash])

theorem lexParagraph_escape (c : Char) (s' buf : List Char) (b i : Bool)
    (es : List DocumentElement) :
    lexParagraph ('\\' :: c :: s') buf b i es = lexParagraph s' (buf ++ [c]) b i es :=
  lexParagraph_cont ('\\' :: c :: s') buf b i es _ _ _ _ _
    (by simp [lexParagraphStep, isGoSpace_backslash])

theorem lexParagraph_star_eof (buf : List Char) (b i : Bool) (es : List DocumentElement) :
    lexParagraph ['*'] buf b i es = (es, none) :=
  lexParagraph_done ['*'] buf b i es es none
    (by simp [lexParagraphStep, isGoSpace_star])

theorem lexParagraph_star2_eof (buf : List Char) (b i : Bool) (es : List DocumentElement) :
    lexParagraph ['*', '*'] buf b i es = (es, none) :=
  lexParagraph_done ['*', '*'] buf b i es es none
    (by simp [lexParagraphStep, isGoSpace_star])

theorem lexParagraph_star1 (c : Char) (s' buf : List Char) (b i : Bool)
    (es : List DocumentElement) (hc : ¬c = '*') :
    lexParagraph ('*' :: c :: s') buf b i es =
      lexParagraph (c :: s') [] b (!i) (es ++ [formatText buf b i]) :=
  lexParagraph_cont ('*' :: c :: s') buf b i es _ _ _ _ _
    (by simp only [lexParagraphStep, if_true]
        rw [if_neg hc]
        simp [isGoSpace_star])

theorem lexParagraph_star2 (c2 : Char) (s'' buf : List Char) (b i : Bool)
    (es : List DocumentElement) (hc2 : ¬c2 = '*') :
    lexParagraph ('*' :: '*' :: c2 :: s'') buf b i es =
      lexParagraph (c2 :: s'') [] (!b) i (es ++ [formatText buf b i]) :=
  lexParagraph_cont ('*' :: '*' :: c2 :: s'') buf b i es _ _ _ _ _
    (by simp only [lexParagraphStep, if_true]
        rw [if_neg hc2]
        simp [isGoSpace_star])

theorem lexParagraph_star3 (s'' buf : List Char) (b i : Bool)
    (es : List DocumentElement) :
    lexParagraph ('*' :: '*' :: '*' :: s'') buf b i es =
      lexParagraph s'' [] (!b) (!i) (es ++ [formatText buf b i]) :=
  lexParagraph_cont ('*' :: '*' :: '*' :: s'') buf b i es _ _ _ _ _
    (by simp [lexParagraphStep, isGoSpace_star])

theorem lexParagraph_other (r : Char) (s buf : List Char) (b i : Bool)
    (es : List DocumentElement) (hr : ¬r = '\n') (hsp : isGoSpace r = false)
    (hbs : ¬r = '\\') (hst : ¬r = '*') :
    lexParagraph (r :: s) buf b i es = lexParagraph s (buf ++ [r]) b i es :=
  lexParagraph_cont (r :: s) buf b i es _ _ _ _ _
    (by simp only [lexParagraphStep]
        rw [if_neg hr, if_neg (by rw [hsp]; simp), if_neg hbs, if_neg hst])

theorem lexParagraph_some_length :
    ∀ (s buf : List Char) (b i : Bool) (es es' : List DocumentElement) (rest : List Char),
      lexParagraph s buf b i es = (es', some rest) → rest.length < s.length := by
  intro s buf b i es
  induction s, buf, b, i, es using lexParagraph.induct with
  | case1 s buf b i es es0 rst hd =>
    intro es' rest h
    rw [lexParagraph_done s buf b i es es0 rst hd] at h
    simp only [Prod.mk.injEq] at h
    obtain ⟨-, h2⟩ := h
    subst h2
    exact lexParagraphStep_done_some_length s buf b i es es0 rest hd
  | case2 s buf b i es s1 buf1 b1 i1 es1 hd ih =>
    intro es' rest h
    rw [lexParagraph_cont s buf b i es s1 buf1 b1 i1 es1 hd] at h
    have h1 := ih es' rest h
    have h2 := lexParagraphStep_cont_length s buf b i es s1 buf1 b1 i1 es1 hd
    omega

/-- `lexParagraphOrDirective` from parser.go: eat whitespace, peek; a `@`
dispatches to `lexDirective` (a `note` yields no element), anything else to
`lexParagraph` with empty buffer and cleared toggles. -/
def lexParagraphOrDirective (s : List Char) :
    List DocumentElement × Except ParseErr (List Char) :=
  match eatWhitespace s with
  | .error e => ([], .error e)
  | .ok [] => ([], .error .eof)
  | .ok (r :: tl) =>
    if r = '@' then
      match lexDirective (r :: tl) with
      | .error e => ([], .error e)
      | .ok (some e, rest) => ([e], .ok rest)
      | .ok (none, rest) => ([], .ok rest)
    else
      match lexParagraph (r :: tl) [] false false [] with
      | (es, none) => (es, .error .eof)
      | (es, some rest) => (es, .ok rest)

theorem lexParagraphOrDirective_length :
    ∀ (s : List Char) (es : List DocumentElement) (rest : List Char),
      lexParagraphOrDirective s = (es, .ok rest) → rest.length < s.length := by
  intro s es rest h
  simp only [lexParagraphOrDirective] at h
  split at h
  · simp at h
  · simp at h
  · rename_i s1 r tl heq
    have hle := eatWhitespace_length s (r :: tl) heq
    split at h
    · split at h
      · simp at h
      · rename_i oe rst hd
        have := lexDirective_length (r :: tl) _ rst hd
        simp only [Prod.mk.injEq, Except.ok.injEq] at h
        rw [← h.2]
        simp only [List.length_cons] at hle this
        omega
      · rename_i oe rst hd
        have := lexDirective_length (r :: tl) _ rst hd
        simp only [Prod.mk.injEq, Except.ok.injEq] at h
        rw [← h.2]
        simp only [List.length_cons] at hle this
        omega
    · split at h
      · simp at h
      · rename_i es0 rst hl
        have := lexParagraph_some_length (r :: tl) [] false false [] es0 rst hl
        simp only [Prod.mk.injEq, Except.ok.injEq] at h
        rw [← h.2]
        simp only [List.length_cons] at hle this
        omega

/-- The body loop of `Parse` from parser.go: repeatedly lex a paragraph or a
directive, accumulating elements; `io.EOF` from the sub-lexer ends the loop
successfully (keeping the elements it returned alongside the error), while
any other error aborts. -/
def parseBody (s : List Char) (text : List DocumentElement) :
    Except ParseErr (List DocumentElement) :=
  match h : lexParagraphOrDirective s with
  | (es, .error e) => if e = .eof then .ok (text ++ es) else .error e
  | (es, .ok rest) => parseBody rest (text ++ es)
termination_by s.length
decreasing_by exact lexParagraphOrDirective_length s es rest h

theorem parseBody_eof (s : List Char) (text es : List DocumentElement)
    (h : lexParagraphOrDirective s = (es, .error .eof)) :
    parseBody s text = .ok (text ++ es) := by
  rw [parseBody.eq_def]
  split
  · rename_i es' e' heq
    rw [h] at heq
    simp only [Prod.mk.injEq, Except.error.injEq] at heq
    obtain ⟨h1, h2⟩ := heq
    subst h1
    rw [← h2]
    rw [if_pos rfl]
  · rename_i es' rest' heq
    rw [h] at heq
    simp at heq

theorem parseBody_error (s : List Char) (text es : List DocumentElement) (e : ParseErr)
    (h : lexParagraphOrDirective s = (es, .error e)) (he : ¬e = .eof) :
    parseBody s text = .error e := by
  rw [parseBody.eq_def]
  split
  · rename_i es' e' heq
    rw [h] at heq
    simp only [Prod.mk.injEq, Except.error.injEq] at heq
    obtain ⟨h1, h2⟩ := heq
    subst h1
    rw [← h2]
    rw [if_neg he]
  · rename_i es' rest' heq
    rw [h] at heq
    simp at heq

theorem parseBody_step (s : List Char) (text es : List DocumentElement) (rest : List Char)
    (h : lexParagraphOrDirective s = (es, .ok rest)) :
    parseBody s text = parseBody rest (text ++ es) := by
  rw [parseBody.eq_def]
  split
  · rename_i es' e' heq
    rw [h] at heq
    simp at heq
  · rename_i es' rest' heq
    rw [h] at heq
    simp only [Prod.mk.injEq, Except.ok.injEq] at heq
    obtain ⟨h1, h2⟩ := heq
    subst h1
    subst h2
    rfl

/-- `Parse` from parser.go: metadata phase, then the body loop, then the
structure builder over the accumulated element sequence. -/
def Parse (s : List Char) : Except ParseErr Document :=
  match lexMetadata s with
  | .error e => .error e
  | .ok (d, rest) =>
    match parseBody rest d.Text with
    | .error e => .error e
    | .ok text => .ok { d with Text := text, Parts := parseText text }

/-! ### Executable evaluation companions

Each well-founded loop above gets a fuel-indexed companion, proven equal to
it when the fuel exceeds the input length.  The companions are structurally
recursive, so concrete runs of the parser reduce by `decide`/`rfl`. -/

theorem metaArgs_error (s : List Char) (args : List String) (e : ParseErr)
    (h : eatWhitespace s = .error e) : metaArgs s args = .error e := by
  rw [metaArgs.eq_def]
  split
  · rename_i e' heq
    rw [h] at heq
    simp only [Except.error.injEq] at heq
    rw [heq]
  · rename_i heq
    rw [h] at heq
    simp at heq
  · rename_i r' tl' heq
    rw [h] at heq
    simp at heq

theorem metaArgs_eofPeek (s : List Char) (args : List String)
    (h : eatWhitespace s = .ok []) : metaArgs s args = .error .eof := by
  rw [metaArgs.eq_def]
  split
  · rename_i e' heq
    rw [h] at heq
    simp at heq
  · rfl
  · rename_i r' tl' heq
    rw [h] at heq
    simp at heq

theorem metaArgs_argErr (s : List Char) (args : List String) (r : Char) (tl : List Char)
    (e : ParseErr) (h : eatWhitespace s = .ok (r :: tl)) (hr : ¬r = '@')
    (h2 : readPlainText (r :: tl) = .error e) :
    metaArgs s args = .error e := by
  rw [metaArgs.eq_def]
  split
  · rename_i e' heq
    rw [h] at heq
    simp at heq
  · rename_i heq
    rw [h] at heq
    simp at heq
  · rename_i r' tl' heq
    rw [h] at heq
    simp only [Except.ok.injEq, List.cons.injEq] at heq
    obtain ⟨hr', htl'⟩ := heq
    subst hr'
    subst htl'
    rw [if_neg hr]
    split
    · rename_i e' heq2
      rw [h2] at heq2
      simp only [Except.error.injEq] at heq2
      rw [heq2]
    · rename_i arg' s2' heq2
      rw [h2] at heq2
      simp at heq2

theorem lexMetadataLoop_error (s : List Char) (d : Document) (e : ParseErr)
    (h : lexMetadataDirective s = .error e) : lexMetadataLoop s d = .error e := by
  rw [lexMetadataLoop.eq_def]
  split
  · rename_i e' heq
    rw [h] at heq
    simp only [Except.error.injEq] at heq
    rw [heq]
  · rename_i name' args' rest' heq
    rw [h] at heq
    simp at heq

theorem lexMetadataLoop_aerr (s : List Char) (d : Document) (name : String)
    (args : List String) (rest : List Char) (e : ParseErr)
    (h : lexMetadataDirective s = .ok (name, args, rest)) (hn : ¬name = "begin")
    (ha : applyMeta d name args = .error e) :
    lexMetadataLoop s d = .error e := by
  rw [lexMetadataLoop.eq_def]
  split
  · rename_i e' heq
    rw [h] at heq
    simp at heq
  · rename_i name' args' rest' heq
    rw [h] at heq
    simp only [Except.ok.injEq, Prod.mk.injEq] at heq
    obtain ⟨h1, h2, h3⟩ := heq
    subst h1
    subst h2
    subst h3
    rw [if_neg hn]
    split
    · rename_i e' heq2
      rw [ha] at heq2
      simp only [Except.error.injEq] at heq2
      rw [heq2]
    · rename_i d'' heq2
      rw [ha] at heq2
      simp at heq2

/-- Fuel-indexed companion of `lexParagraph`. -/
def lexParagraphFuel : Nat → List Char → List Char → Bool → Bool → List DocumentElement →
    List DocumentElement × Option (List Char)
  | 0, _, _, _, _, es => (es, none)
  | fuel + 1, s, buf, bold, italic, es =>
    match lexParagraphStep s buf bold italic es with
    | .done es' rest => (es', rest)
    | .cont s' buf' bold' italic' es' => lexParagraphFuel fuel s' buf' bold' italic' es'

theorem lexParagraphFuel_eq :
    ∀ (fuel : Nat) (s buf : List Char) (b i : Bool) (es : List DocumentElement),
      s.length < fuel → lexParagraphFuel fuel s buf b i es = lexParagraph s buf b i es := by
  intro fuel
  induction fuel with
  | zero => intro s buf b i es h; omega
  | succ n ih =>
    intro s buf b i es h
    cases hstep : lexParagraphStep s buf b i es with
    | done es' rest =>
      simp only [lexParagraphFuel, hstep]
      exact (lexParagraph_done s buf b i es es' rest hstep).symm
    | cont s' buf' b' i' es' =>
      simp only [lexParagraphFuel, hstep]
      have hlt := lexParagraphStep_cont_length s buf b i es s' buf' b' i' es' hstep
      rw [ih s' buf' b' i' es' (by omega)]
      exact (lexParagraph_cont s buf b i es s' buf' b' i' es' hstep).symm

/-- `lexParagraph` with just enough fuel. -/
def lexParagraphEval (s buf : List Char) (b i : Bool) (es : List DocumentElement) :
    List DocumentElement × Option (List Char) :=
  lexParagraphFuel (s.length + 1) s buf b i es

theorem lexParagraphEval_eq (s buf : List Char) (b i : Bool) (es : List DocumentElement) :
    lexParagraphEval s buf b i es = lexParagraph s buf b i es :=
  lexParagraphFuel_eq (s.length + 1) s buf b i es (Nat.lt_succ_self _)

/-- Fuel-indexed companion of `metaArgs`. -/
def metaArgsFuel : Nat → List Char → List String → Except ParseErr (List String × List Char)
  | 0, _, _ => .error .eof
  | fuel + 1, s, args =>
    match eatWhitespace s with
    | .error e => .error e
    | .ok [] => .error .eof
    | .ok (r :: tl) =>
      if r = '@' then .ok (args, r :: tl)
      else
        match readPlainText (r :: tl) with
        | .error e => .error e
        | .ok (arg, s2) => metaArgsFuel fuel s2 (args ++ [arg])

theorem metaArgsFuel_eq :
    ∀ (fuel : Nat) (s : List Char) (args : List String),
      s.length < fuel → metaArgsFuel fuel s args = metaArgs s args := by
  intro fuel
  induction fuel with
  | zero => intro s args h; omega
  | succ n ih =>
    intro s args h
    cases hew : eatWhitespace s with
    | error e =>
      simp only [metaArgsFuel, hew]
      exact (metaArgs_error s args e hew).symm
    | ok s1 =>
      have hle := eatWhitespace_length s s1 hew
      cases s1 with
      | nil =>
        simp only [metaArgsFuel, hew]
        exact (metaArgs_eofPeek s args hew).symm
      | cons r tl =>
        by_cases hr : r = '@'
        · subst hr
          simp only [metaArgsFuel, hew, if_pos rfl]
          exact (metaArgs_stop s args tl hew).symm
        · cases hrp : readPlainText (r :: tl) with
          | error e =>
            simp only [metaArgsFuel, hew, if_neg hr, hrp]
            exact (metaArgs_argErr s args r tl e hew hr hrp).symm
          | ok p =>
            obtain ⟨arg, s2⟩ := p
            have hlt := readPlainText_length (r :: tl) arg s2 hrp
            simp only [metaArgsFuel, hew, if_neg hr, hrp]
            rw [ih s2 (args ++ [arg]) (by simp only [List.length_cons] at hlt hle ⊢; omega)]
            exact (metaArgs_arg s args r tl arg s2 hew hr hrp).symm

/-- `lexMetadataDirective` with the argument loop run on fuel. -/
def lexMetadataDirectiveEval (s : List Char) :
    Except ParseErr (String × List String × List Char) :=
  match eatWhitespace s with
  | .error e => .error e
  | .ok s1 =>
    match s1 with
    | [] => .error .expectedDirective
    | r :: s2 =>
      if r ≠ '@' then .error .expectedDirective
      else
        match readWord s2 with
        | .error e => .error e
        | .ok (name, s3) =>
          if name = "begin" ∨ name = "scene" then .ok (name, [], s3)
          else
            match metaArgsFuel (s3.length + 1) s3 [] with
            | .error e => .error e
            | .ok (args, s4) => .ok (name, args, s4)

theorem lexMetadataDirectiveEval_eq (s : List Char) :
    lexMetadataDirectiveEval s = lexMetadataDirective s := by
  simp only [lexMetadataDirectiveEval, lexMetadataDirective,
    metaArgsFuel_eq _ _ _ (Nat.lt_succ_self _)]

/-- Fuel-indexed companion of `lexMetadataLoop`. -/
def lexMetadataLoopFuel : Nat → List Char → Document → Except ParseErr (Document × List Char)
  | 0, _, _ => .error .eof
  | fuel + 1, s, d =>
    match lexMetadataDirectiveEval s with
    | .error e => .error e
    | .ok (name, args, rest) =>
      if name = "begin" then .ok (d, rest)
      else
        match applyMeta d name args with
        | .error e => .error e
        | .ok d' => lexMetadataLoopFuel fuel rest d'

theorem lexMetadataLoopFuel_eq :
    ∀ (fuel : Nat) (s : List Char) (d : Document),
      s.length < fuel → lexMetadataLoopFuel fuel s d = lexMetadataLoop s d := by
  intro fuel
  induction fuel with
  | zero => intro s d h; omega
  | succ n ih =>
    intro s d h
    cases hld : lexMetadataDirective s with
    | error e =>
      simp only [lexMetadataLoopFuel, lexMetadataDirectiveEval_eq, hld]
      exact (lexMetadataLoop_error s d e hld).symm
    | ok p =>
      obtain ⟨name, args, rest⟩ := p
      have hlt := lexMetadataDirective_length s name args rest hld
      by_cases hn : name = "begin"
      · subst hn
        simp only [lexMetadataLoopFuel, lexMetadataDirectiveEval_eq, hld, if_pos rfl]
        exact (lexMetadataLoop_begin s d args rest hld).symm
      · cases ham : applyMeta d name args with
        | error e =>
          simp only [lexMetadataLoopFuel, lexMetadataDirectiveEval_eq, hld, if_neg hn, ham]
          exact (lexMetadataLoop_aerr s d name args rest e hld hn ham).symm
        | ok d' =>
          simp only [lexMetadataLoopFuel, lexMetadataDirectiveEval_eq, hld, if_neg hn, ham]
          rw [ih rest d' (by omega)]
          exact (lexMetadataLoop_step s d name args rest d' hld hn ham).symm

/-- `lexMetadata` on fuel. -/
def lexMetadataEval (s : List Char) : Except ParseErr (Document × List Char) :=
  lexMetadataLoopFuel (s.length + 1) s {}

theorem lexMetadataEval_eq (s : List Char) : lexMetadataEval s = lexMetadata s :=
  lexMetadataLoopFuel_eq (s.length + 1) s {} (Nat.lt_succ_self _)

/-- `lexParagraphOrDirective` with the paragraph lexer run on fuel. -/
def lexParagraphOrDirectiveEval (s : List Char) :
    List DocumentElement × Except ParseErr (List Char) :=
  match eatWhitespace s with
  | .error e => ([], .error e)
  | .ok [] => ([], .error .eof)
  | .ok (r :: tl) =>
    if r = '@' then
      match lexDirective (r :: tl) with
      | .error e => ([], .error e)
      | .ok (some e, rest) => ([e], .ok rest)
      | .ok (none, rest) => ([], .ok rest)
    else
      match lexParagraphEval (r :: tl) [] false false [] with
      | (es, none) => (es, .error .eof)
      | (es, some rest) => (es, .ok rest)

theorem lexParagraphOrDirectiveEval_eq (s : List Char) :
    lexParagraphOrDirectiveEval s = lexParagraphOrDirective s := by
  simp only [lexParagraphOrDirectiveEval, lexParagraphOrDirective, lexParagraphEval_eq]

/-- Fuel-indexed companion of `parseBody`. -/
def parseBodyFuel : Nat → List Char → List DocumentElement →
    Except ParseErr (List DocumentElement)
  | 0, _, _ => .error .eof
  | fuel + 1, s, text =>
    match lexParagraphOrDirectiveEval s with
    | (es, .error e) => if e = .eof then .ok (text ++ es) else .error e
    | (es, .ok rest) => parseBodyFuel fuel rest (text ++ es)

theorem parseBodyFuel_eq :
    ∀ (fuel : Nat) (s : List Char) (text : List DocumentElement),
      s.length < fuel → parseBodyFuel fuel s text = parseBody s text := by
  intro fuel
  induction fuel with
  | zero => intro s text h; omega
  | succ n ih =>
    intro s text h
    cases hld : lexParagraphOrDirective s with
    | mk es r =>
      cases r with
      | error e =>
        by_cases he : e = .eof
        · subst he
          simp only [parseBodyFuel, lexParagraphOrDirectiveEval_eq, hld, if_pos rfl]
          exact (parseBody_eof s text es hld).symm
        · simp only [parseBodyFuel, lexParagraphOrDirectiveEval_eq, hld, if_neg he]
          exact (parseBody_error s text es e hld he).symm
      | ok rest =>
        have hlt := lexParagraphOrDirective_length s es rest hld
        simp only [parseBodyFuel, lexParagraphOrDirectiveEval_eq, hld]
        rw [ih rest (text ++ es) (by omega)]
        exact (parseBody_step s text es rest hld).symm

/-- Fuel-indexed companion of `parseSceneParas`. -/
def parseSceneParasFuel : Nat → List DocumentElement → List Paragraph × Bool × List DocumentElement
  | 0, _ => ([], false, [])
  | fuel + 1, t =>
    match t with
    | [] => ([], false, [])
    | e₀ :: ts =>
      match (parseParagraph (e₀ :: ts)).2 with
      | [] => ([(parseParagraph (e₀ :: ts)).1], false, [])
      | e :: rest' =>
        if e = .sceneBreak then ([(parseParagraph (e₀ :: ts)).1], true, rest')
        else if isBreak3 e then ([(parseParagraph (e₀ :: ts)).1], false, e :: rest')
        else
          ((parseParagraph (e₀ :: ts)).1 :: (parseSceneParasFuel fuel (e :: rest')).1,
           (parseSceneParasFuel fuel (e :: rest')).2.1,
           (parseSceneParasFuel fuel (e :: rest')).2.2)

theorem parseSceneParasFuel_eq :
    ∀ (fuel : Nat) (t : List DocumentElement),
      t.length < fuel → parseSceneParasFuel fuel t = parseSceneParas t := by
  intro fuel
  induction fuel with
  | zero => intro t h; omega
  | succ n ih =>
    intro t h
    match t with
    | [] => rw [parseSceneParas_nil]; rfl
    | e₀ :: ts =>
      cases hrest : (parseParagraph (e₀ :: ts)).2 with
      | nil =>
        simp only [parseSceneParasFuel, hrest]
        exact (parseSceneParas_stop e₀ ts hrest).symm
      | cons e rest' =>
        by_cases hsb : e = DocumentElement.sceneBreak
        · subst hsb
          simp only [parseSceneParasFuel, hrest, if_pos rfl]
          exact (parseSceneParas_scene e₀ ts rest' hrest).symm
        · by_cases hb3 : isBreak3 e = true
          · simp only [parseSceneParasFuel, hrest, if_neg hsb, if_pos hb3]
            exact (parseSceneParas_break3 e₀ ts e rest' hrest hsb hb3).symm
          · have hstrict : (e :: rest').length < (e₀ :: ts).length := by
              rcases parseParagraph_progress (e₀ :: ts) with hp | ⟨hp, hp2⟩
              · rw [hrest] at hp
                exact hp
              · rw [hrest] at hp
                rcases hp2 with hp2 | ⟨e', t', het, hbr⟩
                · simp at hp2
                · exfalso
                  rw [het] at hp
                  simp only [List.cons.injEq] at hp
                  obtain ⟨hpe, -⟩ := hp
                  rw [← hpe] at hbr
                  rcases (isBreak4_iff e).mp hbr with hx | hx
                  · exact hsb hx
                  · exact hb3 hx
            simp only [parseSceneParasFuel, hrest, if_neg hsb, if_neg hb3]
            rw [ih (e :: rest') (by simp only [List.length_cons] at hstrict h ⊢; omega)]
            exact (parseSceneParas_cont e₀ ts e rest' hrest hsb (by simpa using hb3)).symm

/-- `parseScene` on fuel. -/
def parseSceneEval (t : List DocumentElement) : Scene × List DocumentElement :=
  ({ EndsWithSceneBreak := (parseSceneParasFuel (t.length + 1) t).2.1,
     Paragraphs := (parseSceneParasFuel (t.length + 1) t).1 },
   (parseSceneParasFuel (t.length + 1) t).2.2)

theorem parseSceneEval_eq (t : List DocumentElement) : parseSceneEval t = parseScene t := by
  simp only [parseSceneEval, parseScene, parseSceneParasFuel_eq _ _ (Nat.lt_succ_self _)]

/-- Fuel-indexed companion of `parseChapterScenes`. -/
def parseChapterScenesFuel : Nat → List DocumentElement → List Scene × List DocumentElement
  | 0, _ => ([], [])
  | fuel + 1, t =>
    match t with
    | [] => ([], [])
    | e₀ :: ts =>
      match (parseSceneEval (e₀ :: ts)).2 with
      | [] => ([(parseSceneEval (e₀ :: ts)).1], [])
      | e :: rest' =>
        if isBreak3 e then ([(parseSceneEval (e₀ :: ts)).1], e :: rest')
        else
          ((parseSceneEval (e₀ :: ts)).1 :: (parseChapterScenesFuel fuel (e :: rest')).1,
           (parseChapterScenesFuel fuel (e :: rest')).2)

theorem parseChapterScenesFuel_eq :
    ∀ (fuel : Nat) (t : List DocumentElement),
      t.length < fuel → parseChapterScenesFuel fuel t = parseChapterScenes t := by
  intro fuel
  induction fuel with
  | zero => intro t h; omega
  | succ n ih =>
    intro t h
    match t with
    | [] => rw [parseChapterScenes_nil]; rfl
    | e₀ :: ts =>
      cases hrest : (parseScene (e₀ :: ts)).2 with
      | nil =>
        simp only [parseChapterScenesFuel, parseSceneEval_eq, hrest]
        exact (parseChapterScenes_stop e₀ ts hrest).symm
      | cons e rest' =>
        by_cases hb3 : isBreak3 e = true
        · simp only [parseChapterScenesFuel, parseSceneEval_eq, hrest, if_pos hb3]
          exact (parseChapterScenes_break3 e₀ ts e rest' hrest hb3).symm
        · have hstrict : (e :: rest').length < (e₀ :: ts).length := by
            rcases parseScene_progress (e₀ :: ts) with hp | ⟨hp, hp2⟩
            · rw [hrest] at hp
              exact hp
            · rw [hrest] at hp
              rcases hp2 with hp2 | ⟨e', t', het, hbr⟩
              · simp at hp2
              · exfalso
                rw [het] at hp
                simp only [List.cons.injEq] at hp
                obtain ⟨hpe, -⟩ := hp
                rw [← hpe] at hbr
                exact hb3 hbr
          simp only [parseChapterScenesFuel, parseSceneEval_eq, hrest, if_neg hb3]
          rw [ih (e :: rest') (by simp only [List.length_cons] at hstrict h ⊢; omega)]
          exact (parseChapterScenes_cont e₀ ts e rest' hrest (by simpa using hb3)).symm

/-- `parseChapter` on fuel. -/
def parseChapterEval (text : List DocumentElement) : Chapter × List DocumentElement :=
  match text with
  | .prologueBreak ti :: rest =>
    ({ Title := ti, Anonymous := false, Prologue := true, Number := 0,
       Scenes := (parseChapterScenesFuel (rest.length + 1) rest).1 },
     (parseChapterScenesFuel (rest.length + 1) rest).2)
  | .chapterBreak ti :: rest =>
    ({ Title := ti, Anonymous := false, Prologue := false, Number := 0,
       Scenes := (parseChapterScenesFuel (rest.length + 1) rest).1 },
     (parseChapterScenesFuel (rest.length + 1) rest).2)
  | _ =>
    ({ Title := "", Anonymous := true, Prologue := false, Number := 0,
       Scenes := (parseChapterScenesFuel (text.length + 1) text).1 },
     (parseChapterScenesFuel (text.length + 1) text).2)

theorem parseChapterEval_eq (text : List DocumentElement) :
    parseChapterEval text = parseChapter text := by
  simp only [parseChapterEval, parseChapter,
    parseChapterScenesFuel_eq _ _ (Nat.lt_succ_self _)]

/-- Fuel-indexed companion of `parsePartChapters`. -/
def parsePartChaptersFuel : Nat → List DocumentElement → Nat → Nat →
    List Chapter × List DocumentElement
  | 0, _, _, _ => ([], [])
  | fuel + 1, t, cn, pn =>
    match t with
    | [] => ([], [])
    | e₀ :: ts =>
      match (parseChapterEval (e₀ :: ts)).2 with
      | [] => ([numberChapter (parseChapterEval (e₀ :: ts)).1 cn pn], [])
      | e :: rest' =>
        if isPartBreak e then
          ([numberChapter (parseChapterEval (e₀ :: ts)).1 cn pn], e :: rest')
        else
          (numberChapter (parseChapterEval (e₀ :: ts)).1 cn pn ::
            (parsePartChaptersFuel fuel (e :: rest')
              (nextChapterNumber (parseChapterEval (e₀ :: ts)).1 cn)
              (nextPrologueNumber (parseChapterEval (e₀ :: ts)).1 pn)).1,
           (parsePartChaptersFuel fuel (e :: rest')
              (nextChapterNumber (parseChapterEval (e₀ :: ts)).1 cn)
              (nextPrologueNumber (parseChapterEval (e₀ :: ts)).1 pn)).2)

theorem parsePartChaptersFuel_eq :
    ∀ (fuel : Nat) (t : List DocumentElement) (cn pn : Nat),
      t.length < fuel → parsePartChaptersFuel fuel t cn pn = parsePartChapters t cn pn := by
  intro fuel
  induction fuel with
  | zero => intro t cn pn h; omega
  | succ n ih =>
    intro t cn pn h
    match t with
    | [] => rw [parsePartChapters_nil]; rfl
    | e₀ :: ts =>
      cases hrest : (parseChapter (e₀ :: ts)).2 with
      | nil =>
        simp only [parsePartChaptersFuel, parseChapterEval_eq, hrest]
        exact (parsePartChapters_stop e₀ ts cn pn hrest).symm
      | cons e rest' =>
        by_cases hpb : isPartBreak e = true
        · simp only [parsePartChaptersFuel, parseChapterEval_eq, hrest, if_pos hpb]
          exact (parsePartChapters_break e₀ ts e rest' cn pn hrest hpb).symm
        · have hstrict : (e :: rest').length < (e₀ :: ts).length := by
            rcases parseChapter_progress (e₀ :: ts) with hp | ⟨hp, hp2⟩
            · rw [hrest] at hp
              exact hp
            · rw [hrest] at hp
              rcases hp2 with hp2 | ⟨ti, t', het⟩
              · simp at hp2
              · exfalso
                rw [het] at hp
                simp only [List.cons.injEq] at hp
                obtain ⟨hpe, -⟩ := hp
                rw [hpe] at hpb
                simp [isPartBreak] at hpb
          simp only [parsePartChaptersFuel, parseChapterEval_eq, hrest, if_neg hpb]
          rw [ih (e :: rest') _ _ (by simp only [List.length_cons] at hstrict h ⊢; omega)]
          exact (parsePartChapters_cont e₀ ts e rest' cn pn hrest (by simpa using hpb)).symm

/-- `parsePart` on fuel. -/
def parsePartEval (text : List DocumentElement) : Part × List DocumentElement :=
  match text with
  | .partBreak ti :: rest =>
    ({ Title := ti, Anonymous := false, Number := 0,
       Chapters := (parsePartChaptersFuel (rest.length + 1) rest 0 0).1 },
     (parsePartChaptersFuel (rest.length + 1) rest 0 0).2)
  | _ =>
    ({ Title := "", Anonymous := true, Number := 0,
       Chapters := (parsePartChaptersFuel (text.length + 1) text 0 0).1 },
     (parsePartChaptersFuel (text.length + 1) text 0 0).2)

theorem parsePartEval_eq (text : List DocumentElement) : parsePartEval text = parsePart text := by
  simp only [parsePartEval, parsePart, parsePartChaptersFuel_eq _ _ _ _ (Nat.lt_succ_self _)]

/-- Fuel-indexed companion of `parseTextGo`. -/
def parseTextGoFuel : Nat → List DocumentElement → Nat → List Part
  | 0, _, _ => []
  | fuel + 1, t, n =>
    match t with
    | [] => []
    | e₀ :: ts =>
      { (parsePartEval (e₀ :: ts)).1 with
          Number := nextPartNumber (parsePartEval (e₀ :: ts)).1 n } ::
        parseTextGoFuel fuel (parsePartEval (e₀ :: ts)).2
          (nextPartNumber (parsePartEval (e₀ :: ts)).1 n)

theorem parseTextGoFuel_eq :
    ∀ (fuel : Nat) (t : List DocumentElement) (n : Nat),
      t.length < fuel → parseTextGoFuel fuel t n = parseTextGo t n := by
  intro fuel
  induction fuel with
  | zero => intro t n h; omega
  | succ m ih =>
    intro t n h
    match t with
    | [] => rw [parseTextGo_nil]; rfl
    | e₀ :: ts =>
      have hlt := parsePart_progress e₀ ts
      simp only [parseTextGoFuel, parsePartEval_eq]
      rw [ih (parsePart (e₀ :: ts)).2 _ (by simp only [List.length_cons] at hlt h ⊢; omega)]
      rw [parseTextGo_cons]

/-- `parseText` on fuel. -/
def parseTextEval (text : List DocumentElement) : List Part :=
  parseTextGoFuel (text.length + 1) text 0

theorem parseTextEval_eq (text : List DocumentElement) : parseTextEval text = parseText text :=
  parseTextGoFuel_eq (text.length + 1) text 0 (Nat.lt_succ_self _)

/-- `Parse` built entirely from the fueled companions; it evaluates by
`decide` on concrete inputs. -/
def ParseEval (s : List Char) : Except ParseErr Document :=
  match lexMetadataEval s with
  | .error e => .error e
  | .ok (d, rest) =>
    match parseBodyFuel (rest.length + 1) rest d.Text with
    | .error e => .error e
    | .ok text => .ok { d with Text := text, Parts := parseTextEval text }

theorem ParseEval_eq (s : List Char) : ParseEval s = Parse s := by
  simp only [ParseEval, Parse, lexMetadataEval_eq, parseBodyFuel_eq _ _ _ (Nat.lt_succ_self _),
    parseTextEval_eq]

/-! ### Helper lemmas for the claim theorems -/

theorem addWhitespace_getLast (l : List Char) : (addWhitespace l).getLast? = some ' ' := by
  unfold addWhitespace
  split
  · simp
  · rename_i h
    simp at h
    exact h.2

theorem addWhitespace_of_getLast (l : List Char) (h : l.getLast? = some ' ') :
    addWhitespace l = l := by
  have hne : l ≠ [] := by intro hx; rw [hx] at h; simp at h
  unfold addWhitespace
  rw [if_neg]
  simp [h, hne]

theorem addWhitespace_idem (buf : List Char) :
    addWhitespace (addWhitespace buf) = addWhitespace buf :=
  addWhitespace_of_getLast _ (addWhitespace_getLast buf)

theorem addWhitespace_cases (buf : List Char) :
    addWhitespace buf = buf ∨ addWhitespace buf = buf ++ [' '] := by
  unfold addWhitespace
  split
  · exact .inr rfl
  · exact .inl rfl

theorem eatWhitespace_allSpace : ∀ (s : List Char), s.all isGoSpace = true →
    eatWhitespace s = .error .eof := by
  intro s
  induction s with
  | nil => intro _; rfl
  | cons c cs ih =>
    intro h
    simp only [List.all_cons, Bool.and_eq_true] at h
    simp [eatWhitespace, h.1]
    exact ih h.2

theorem applyMeta_textParts (d : Document) (name : String) (args : List String)
    (d' : Document) (h : applyMeta d name args = .ok d') :
    d'.Text = d.Text ∧ d'.Parts = d.Parts := by
  unfold applyMeta at h
  by_cases h1 : name = "notes"
  · rw [if_pos h1] at h
    rw [← Except.ok.inj h]
    exact ⟨rfl, rfl⟩
  rw [if_neg h1] at h
  by_cases h2 : name = "type"
  · rw [if_pos h2] at h
    rcases args with _ | ⟨a, _ | ⟨a2, tl⟩⟩
    · exact Except.noConfusion h
    · have h2t : (if a = "shortStory" then Except.ok { d with type := StoryType.shortStory }
          else if a = "novel" then Except.ok { d with type := StoryType.novel }
          else Except.error ParseErr.invalidStoryType) = Except.ok d' := h
      by_cases ha : a = "shortStory"
      · rw [if_pos ha] at h2t
        rw [← Except.ok.inj h2t]
        exact ⟨rfl, rfl⟩
      rw [if_neg ha] at h2t
      by_cases hb : a = "novel"
      · rw [if_pos hb] at h2t
        rw [← Except.ok.inj h2t]
        exact ⟨rfl, rfl⟩
      rw [if_neg hb] at h2t
      exact Except.noConfusion h2t
    · exact Except.noConfusion h
  rw [if_neg h2] at h
  by_cases h3 : name = "title"
  · rw [if_pos h3] at h
    rcases args with _ | ⟨a, _ | ⟨a2, tl⟩⟩
    · exact Except.noConfusion h
    · rw [← Except.ok.inj h]
      exact ⟨rfl, rfl⟩
    · exact Except.noConfusion h
  rw [if_neg h3] at h
  by_cases h4 : name = "shortTitle"
  · rw [if_pos h4] at h
    rcases args with _ | ⟨a, _ | ⟨a2, tl⟩⟩
    · exact Except.noConfusion h
    · rw [← Except.ok.inj h]
      exact ⟨rfl, rfl⟩
    · exact Except.noConfusion h
  rw [if_neg h4] at h
  by_cases h5 : name = "authorName"
  · rw [if_pos h5] at h
    rcases args with _ | ⟨a, _ | ⟨a2, tl⟩⟩
    · exact Except.noConfusion h
    · rw [← Except.ok.inj h]
      exact ⟨rfl, rfl⟩
    · exact Except.noConfusion h
  rw [if_neg h5] at h
  by_cases h6 : name = "authorShortName"
  · rw [if_pos h6] at h
    rcases args with _ | ⟨a, _ | ⟨a2, tl⟩⟩
    · exact Except.noConfusion h
    · rw [← Except.ok.inj h]
      exact ⟨rfl, rfl⟩
    · exact Except.noConfusion h
  rw [if_neg h6] at h
  by_cases h7 : name = "authorByline"
  · rw [if_pos h7] at h
    rcases args with _ | ⟨a, _ | ⟨a2, tl⟩⟩
    · exact Except.noConfusion h
    · rw [← Except.ok.inj h]
      exact ⟨rfl, rfl⟩
    · exact Except.noConfusion h
  rw [if_neg h7] at h
  by_cases h8 : name = "authorAddress"
  · rw [if_pos h8] at h
    split_ifs at h
    all_goals first
    | (rw [← Except.ok.inj h]; exact ⟨rfl, rfl⟩)
    | exact Except.noConfusion h
  rw [if_neg h8] at h
  by_cases h9 : name = "authorPhoneNumber"
  · rw [if_pos h9] at h
    rcases args with _ | ⟨a, _ | ⟨a2, tl⟩⟩
    · exact Except.noConfusion h
    · rw [← Except.ok.inj h]
      exact ⟨rfl, rfl⟩
    · exact Except.noConfusion h
  rw [if_neg h9] at h
  by_cases h10 : name = "authorEmail"
  · rw [if_pos h10] at h
    rcases args with _ | ⟨a, _ | ⟨a2, tl⟩⟩
    · exact Except.noConfusion h
    · rw [← Except.ok.inj h]
      exact ⟨rfl, rfl⟩
    · exact Except.noConfusion h
  rw [if_neg h10] at h
  by_cases h11 : name = "authorOrgs"
  · rw [if_pos h11] at h
    split_ifs at h
    all_goals first
    | (rw [← Except.ok.inj h]; exact ⟨rfl, rfl⟩)
    | exact Except.noConfusion h
  rw [if_neg h11] at h
  by_cases h12 : name = "begin"
  · rw [if_pos h12] at h
    rw [← Except.ok.inj h]
    exact ⟨rfl, rfl⟩
  rw [if_neg h12] at h
  exact Except.noConfusion h

theorem lexMetadataLoopFuel_textParts :
    ∀ (fuel : Nat) (s : List Char) (d d' : Document) (rest : List Char),
      lexMetadataLoopFuel fuel s d = .ok (d', rest) →
      d'.Text = d.Text ∧ d'.Parts = d.Parts := by
  intro fuel
  induction fuel with
  | zero => intro s d d' rest h; simp [lexMetadataLoopFuel] at h
  | succ n ih =>
    intro s d d' rest h
    simp only [lexMetadataLoopFuel] at h
    cases hld : lexMetadataDirectiveEval s with
    | error e =>
      rw [hld] at h
      exact Except.noConfusion h
    | ok p =>
      obtain ⟨name, args, rest'⟩ := p
      rw [hld] at h
      have h1 : (if name = "begin" then Except.ok (d, rest')
          else match applyMeta d name args with
            | Except.error e => Except.error e
            | Except.ok d1 => lexMetadataLoopFuel n rest' d1) = Except.ok (d', rest) := h
      by_cases hn : name = "begin"
      · rw [if_pos hn] at h1
        have hd : d = d' := congrArg Prod.fst (Except.ok.inj h1)
        rw [← hd]
        exact ⟨rfl, rfl⟩
      · rw [if_neg hn] at h1
        cases ham : applyMeta d name args with
        | error e =>
          rw [ham] at h1
          exact Except.noConfusion h1
        | ok d1 =>
          rw [ham] at h1
          have h2 := ih rest' d1 d' rest h1
          have h3 := applyMeta_textParts d name args d1 ham
          exact ⟨h2.1.trans h3.1, h2.2.trans h3.2⟩

theorem lexMetadata_textParts (s : List Char) (d : Document) (rest : List Char)
    (h : lexMetadata s = .ok (d, rest)) : d.Text = [] ∧ d.Parts = [] := by
  rw [← lexMetadataEval_eq] at h
  exact lexMetadataLoopFuel_textParts _ s {} d rest h

/-! ### The claim theorems -/

/-- Claim C2: `Parse` on the exact Scenario A input
`@type shortStory\n@title T\n@authorByline A\n@begin\nHello *world*.\n`
succeeds with exactly one anonymous Part holding one anonymous Chapter holding
one Scene holding one Paragraph whose runs are plain "Hello ",
italic "world", plain ".". -/
theorem parse_scenarioA :
    Parse ("@type shortStory\n@title T\n@authorByline A\n@begin\nHello *world*.\n".toList) =
      .ok { Title := "T", Author := { Byline := "A" },
            Parts := [{ Anonymous := true,
                        Chapters := [{ Anonymous := true,
                                       Scenes := [{ Paragraphs := [{ Text :=
                                         [.plainText "Hello ", .italicText "world",
                                          .plainText "."] }] }] }] }],
            Text := [.plainText "Hello ", .italicText "world", .plainText "."] } := by
  rw [← ParseEval_eq]
  decide

/-- Claim C3: from any prior (bold, italic) state, a run of exactly 1 / 2 / 3
emphasis delimiters toggles italic / bold / both in one transition, after
flushing the buffered text as a single run under the prior state. -/
theorem lexParagraph_emphasisToggle (b i : Bool) (buf s' : List Char)
    (es : List DocumentElement) (c : Char) (hc : ¬c = '*') :
    lexParagraph ('*' :: c :: s') buf b i es
        = lexParagraph (c :: s') [] b (!i) (es ++ [formatText buf b i]) ∧
    lexParagraph ('*' :: '*' :: c :: s') buf b i es
        = lexParagraph (c :: s') [] (!b) i (es ++ [formatText buf b i]) ∧
    lexParagraph ('*' :: '*' :: '*' :: s') buf b i es
        = lexParagraph s' [] (!b) (!i) (es ++ [formatText buf b i]) :=
  ⟨lexParagraph_star1 c s' buf b i es hc,
   lexParagraph_star2 c s' buf b i es hc,
   lexParagraph_star3 s' buf b i es⟩

/-- Witness for C3 at the concrete prior state (bold, no italic), buffer "a",
following character 'x'. -/
theorem lexParagraph_emphasisToggle_witness :
    lexParagraph ('*' :: 'x' :: []) ['a'] true false []
        = lexParagraph ('x' :: []) [] true (!false) ([] ++ [formatText ['a'] true false]) ∧
    lexParagraph ('*' :: '*' :: 'x' :: []) ['a'] true false []
        = lexParagraph ('x' :: []) [] (!true) false ([] ++ [formatText ['a'] true false]) ∧
    lexParagraph ('*' :: '*' :: '*' :: []) ['a'] true false []
        = lexParagraph [] [] (!true) (!false) ([] ++ [formatText ['a'] true false]) :=
  lexParagraph_emphasisToggle true false ['a'] [] [] 'x' (by decide)

/-- Counterexample to claim C5: end of input inside an escape sequence, or
inside a body directive argument, does not fail the parse with an
end-of-input error; `Parse` completes successfully, dropping the pending
material. -/
theorem parse_eofInEscape_cex :
    Parse ("@type shortStory\n@title T\n@authorByline A\n@begin\nab\\".toList) =
      .ok { Title := "T", Author := { Byline := "A" } } ∧
    Parse ("@type shortStory\n@title T\n@authorByline A\n@begin\n@chapter Foo".toList) =
      .ok { Title := "T", Author := { Byline := "A" } } := by
  constructor <;> (rw [← ParseEval_eq]; decide)

/-- Claim C5 (amended): end of input at an escape character ends the paragraph
scan cleanly with the buffer dropped, and any end-of-input error a body
sub-lexer reports is turned into successful completion by the body loop. -/
theorem parseBody_eofSuccess_amended (buf s : List Char) (b i : Bool)
    (es acc text : List DocumentElement)
    (h : lexParagraphOrDirective s = (acc, .error .eof)) :
    lexParagraph ['\\'] buf b i es = (es, none) ∧
    parseBody s text = .ok (text ++ acc) :=
  ⟨lexParagraph_escape_eof buf b i es, parseBody_eof s text acc h⟩

/-- Witness for the amended C5 at the one-character input `\`. -/
theorem parseBody_eofSuccess_amended_witness :
    lexParagraph ['\\'] ['a'] false false [] = ([], none) ∧
    parseBody ['\\'] [] = .ok ([] ++ []) :=
  parseBody_eofSuccess_amended ['a'] ['\\'] false false [] [] []
    (by rw [← lexParagraphOrDirectiveEval_eq]; decide)

/-- Counterexample to claim C6: an escaped space directly after a collapsed
whitespace run yields two adjacent spaces in the run text (`a \ b` lexes to
the run "a  b"). -/
theorem parse_escapedSpace_cex :
    Parse ("@type shortStory\n@title T\n@authorByline A\n@begin\na \\ b\n".toList) =
      .ok { Title := "T", Author := { Byline := "A" },
            Parts := [{ Anonymous := true,
                        Chapters := [{ Anonymous := true,
                                       Scenes := [{ Paragraphs :=
                                         [{ Text := [.plainText "a  b"] }] }] }] }],
            Text := [.plainText "a  b"] } := by
  rw [← ParseEval_eq]
  decide

/-- Characterization of a whitespace run the paragraph scanner collapses:
every character is whitespace, and every newline in the run is followed (in
the run or in the continuation `s`) by a character that is neither a second
newline nor the directive sigil, i.e. the newline is not a paragraph or
directive terminator. -/
def wsRunOk : List Char → List Char → Bool
  | [], _ => true
  | c :: tl, s =>
    isGoSpace c &&
    (if c = '\n' then
      match tl, s with
      | [], [] => false
      | [], r :: _ => !(r = '\n' || r = '@')
      | r :: _, _ => !(r = '\n' || r = '@')
     else true) &&
    wsRunOk tl s

/-- Claim C6 (amended): a nonempty run of unescaped whitespace characters —
embedded newlines that are not paragraph or directive terminators included —
collapses to a single `addWhitespace` application, which appends at most one
space and appends nothing when the buffer already ends with a space.
(An escaped whitespace character is inserted literally and can still produce
two adjacent spaces next to a collapsed run.) -/
theorem lexParagraph_whitespaceCollapse_amended :
    ∀ (ws : List Char), ws ≠ [] → ∀ (s : List Char), wsRunOk ws s = true →
    ∀ (buf : List Char) (b i : Bool) (es : List DocumentElement),
      lexParagraph (ws ++ s) buf b i es = lexParagraph s (addWhitespace buf) b i es ∧
      (addWhitespace buf = buf ∨ addWhitespace buf = buf ++ [' ']) := by
  intro ws
  induction ws with
  | nil => intro hne; exact absurd rfl hne
  | cons c tl ih =>
    intro _ s hok buf b i es
    refine ⟨?_, addWhitespace_cases buf⟩
    simp only [wsRunOk, Bool.and_eq_true] at hok
    obtain ⟨⟨hsp, hnl⟩, hok'⟩ := hok
    by_cases hc : c = '\n'
    · subst hc
      cases tl with
      | nil =>
        cases s with
        | nil => simp at hnl
        | cons r s' =>
          have hterm : ¬(r = '\n' ∨ r = '@') := by simpa using hnl
          simp only [List.cons_append, List.nil_append]
          exact lexParagraph_newline_ws r s' buf b i es hterm
      | cons r tl' =>
        have hterm : ¬(r = '\n' ∨ r = '@') := by simpa using hnl
        simp only [List.cons_append]
        rw [lexParagraph_newline_ws r (tl' ++ s) buf b i es hterm]
        have h2 := (ih (by simp) s hok' (addWhitespace buf) b i es).1
        simp only [List.cons_append] at h2
        rw [h2, addWhitespace_idem]
    · rw [List.cons_append, lexParagraph_space c (tl ++ s) buf b i es hc hsp]
      cases tl with
      | nil => simp
      | cons d tl' =>
        have h2 := (ih (by simp) s hok' (addWhitespace buf) b i es).1
        simp only [List.cons_append] at h2 ⊢
        rw [h2, addWhitespace_idem]

/-- Witness for the amended C6 at a concrete whitespace run holding an
embedded newline (space then newline, before 'b'), buffer "a". -/
theorem lexParagraph_whitespaceCollapse_amended_witness :
    lexParagraph ([' ', '\n'] ++ ['b']) ['a'] false false []
        = lexParagraph ['b'] (addWhitespace ['a']) false false [] ∧
    (addWhitespace ['a'] = ['a'] ∨ addWhitespace ['a'] = ['a'] ++ [' ']) :=
  lexParagraph_whitespaceCollapse_amended [' ', '\n'] (by decide) ['b'] (by decide)
    ['a'] false false []

/-- Claim C7: inside a paragraph, the escape character followed by any
character C appends C literally to the run buffer and continues scanning,
for every C — including the directive sigil, the emphasis delimiter,
whitespace and newline. -/
theorem lexParagraph_escapeLiteral (c : Char) (s' buf : List Char) (b i : Bool)
    (es : List DocumentElement) :
    lexParagraph ('\\' :: c :: s') buf b i es = lexParagraph s' (buf ++ [c]) b i es :=
  lexParagraph_escape c s' buf b i es

/-- Counterexample to claim C8: an unrecognized directive in the body phase
does not fail with the unrecognized-directive error (it fails with the
distinct invalid-directive error). -/
theorem parse_bodyBogus_cex :
    Parse ("@type shortStory\n@title T\n@authorByline A\n@begin\n@bogus x\n".toList) =
      .error .invalidDirective ∧
    ParseErr.invalidDirective ≠ ParseErr.unrecognizedDirective := by
  constructor
  · rw [← ParseEval_eq]; decide
  · decide

/-- The metadata directive names `applyMeta` recognizes (parser.go lines
174-263). -/
def recognizedMetaDirective (name : String) : Bool :=
  name = "notes" || name = "type" || name = "title" || name = "shortTitle" ||
  name = "authorName" || name = "authorShortName" || name = "authorByline" ||
  name = "authorAddress" || name = "authorPhoneNumber" || name = "authorEmail" ||
  name = "authorOrgs" || name = "begin"

/-- The body directive names `lexDirective` recognizes (parser.go lines
368-381). -/
def recognizedBodyDirective (name : String) : Bool :=
  name = "scene" || name = "chapter" || name = "part" || name = "prologue" || name = "note"

theorem applyMeta_unknown (d : Document) (name : String) (args : List String)
    (h : recognizedMetaDirective name = false) :
    applyMeta d name args = .error ParseErr.unrecognizedDirective := by
  have h1 : ¬name = "notes" := fun hx => by rw [hx] at h; exact absurd h (by decide)
  have h2 : ¬name = "type" := fun hx => by rw [hx] at h; exact absurd h (by decide)
  have h3 : ¬name = "title" := fun hx => by rw [hx] at h; exact absurd h (by decide)
  have h4 : ¬name = "shortTitle" := fun hx => by rw [hx] at h; exact absurd h (by decide)
  have h5 : ¬name = "authorName" := fun hx => by rw [hx] at h; exact absurd h (by decide)
  have h6 : ¬name = "authorShortName" := fun hx => by rw [hx] at h; exact absurd h (by decide)
  have h7 : ¬name = "authorByline" := fun hx => by rw [hx] at h; exact absurd h (by decide)
  have h8 : ¬name = "authorAddress" := fun hx => by rw [hx] at h; exact absurd h (by decide)
  have h9 : ¬name = "authorPhoneNumber" := fun hx => by rw [hx] at h; exact absurd h (by decide)
  have h10 : ¬name = "authorEmail" := fun hx => by rw [hx] at h; exact absurd h (by decide)
  have h11 : ¬name = "authorOrgs" := fun hx => by rw [hx] at h; exact absurd h (by decide)
  have h12 : ¬name = "begin" := fun hx => by rw [hx] at h; exact absurd h (by decide)
  unfold applyMeta
  rw [if_neg h1, if_neg h2, if_neg h3, if_neg h4, if_neg h5, if_neg h6, if_neg h7, if_neg h8, if_neg h9, if_neg h10, if_neg h11, if_neg h12]

theorem lexDirective_unknown (s1 : List Char) (name : String) (s2 : List Char)
    (hrw : readWord s1 = .ok (name, s2))
    (hs : ¬name = "scene")
    (hd : ¬(name = "chapter" ∨ name = "part" ∨ name = "prologue" ∨ name = "note")) :
    lexDirective ('@' :: s1) = .error ParseErr.invalidDirective := by
  simp only [lexDirective]
  rw [if_neg (fun hx => hx rfl), hrw]
  split
  · rename_i e heq
    exact absurd heq (by simp)
  · rename_i name' s2' heq
    simp only [Except.ok.injEq, Prod.mk.injEq] at heq
    obtain ⟨hn1, hn2⟩ := heq
    subst hn1
    subst hn2
    rw [if_neg hs, if_neg hd]

/-- Claim C8 (amended): every directive name outside the recognized set
fails the scanner — with `unrecognizedDirective` ("Unrecognized directive")
in the metadata phase and the distinct `invalidDirective`
("Invalid directive") in the body phase — and any scanner error aborts
`Parse` with that error, returning no document. -/
theorem parse_unknownDirective_amended :
    ∀ (name : String) (d d' : Document) (args : List String) (s1 s2 s rest : List Char)
      (e : ParseErr),
      (recognizedMetaDirective name = false →
        applyMeta d name args = .error ParseErr.unrecognizedDirective) ∧
      (readWord s1 = .ok (name, s2) → recognizedBodyDirective name = false →
        lexDirective ('@' :: s1) = .error ParseErr.invalidDirective) ∧
      (lexMetadata s = .error e → Parse s = .error e) ∧
      (lexMetadata s = .ok (d', rest) → parseBody rest d'.Text = .error e →
        Parse s = .error e) := by
  intro name d d' args s1 s2 s rest e
  refine ⟨applyMeta_unknown d name args, ?_, ?_, ?_⟩
  · intro hrw hrec
    refine lexDirective_unknown s1 name s2 hrw ?_ ?_
    · exact fun hx => by rw [hx] at hrec; exact absurd hrec (by decide)
    · intro hx
      rcases hx with hx | hx | hx | hx <;>
        (rw [hx] at hrec; exact absurd hrec (by decide))
  · intro h
    simp only [Parse, h]
  · intro h1 h2
    simp only [Parse, h1, h2]

/-- Witness for the amended C8: the unknown name `bogus` at concrete inputs
in each phase, plus the two end-to-end `Parse` failures. -/
theorem parse_unknownDirective_amended_witness :
    applyMeta {} "bogus" [] = .error ParseErr.unrecognizedDirective ∧
    lexDirective ('@' :: "bogus x\n".toList) = .error ParseErr.invalidDirective ∧
    Parse ("@bogus x\n@begin\n".toList) = .error ParseErr.unrecognizedDirective ∧
    Parse ("@type shortStory\n@title T\n@authorByline A\n@begin\n@bogus x\n".toList)
      = .error ParseErr.invalidDirective :=
  ⟨(parse_unknownDirective_amended "bogus" {} {} [] [] [] [] [] ParseErr.eof).1
      (by decide),
   (parse_unknownDirective_amended "bogus" {} {} [] ("bogus x\n".toList) (" x\n".toList)
      [] [] ParseErr.eof).2.1 (by decide) (by decide),
   (parse_unknownDirective_amended "x" {} {} [] [] [] ("@bogus x\n@begin\n".toList) []
      ParseErr.unrecognizedDirective).2.2.1 (by rw [← lexMetadataEval_eq]; decide),
   (parse_unknownDirective_amended "x" {}
      { Title := "T", Author := { Byline := "A" } } [] [] []
      ("@type shortStory\n@title T\n@authorByline A\n@begin\n@bogus x\n".toList)
      ("\n@bogus x\n".toList) ParseErr.invalidDirective).2.2.2
      (by rw [← lexMetadataEval_eq]; decide)
      (by rw [← parseBodyFuel_eq (("\n@bogus x\n".toList).length + 1) _ _
            (Nat.lt_succ_self _)]
          decide)⟩

/-- Claim C9: well-formed metadata ending at the `begin` sentinel with only
whitespace (or nothing) after it parses successfully to the metadata document
itself, whose Parts list is empty — no synthetic Part, Chapter or Scene. -/
theorem parse_emptyBody (s : List Char) (d : Document) (rest : List Char)
    (h : lexMetadata s = .ok (d, rest)) (hws : rest.all isGoSpace = true) :
    Parse s = .ok d ∧ d.Parts = [] := by
  obtain ⟨htext, hparts⟩ := lexMetadata_textParts s d rest h
  have hpod : lexParagraphOrDirective rest = ([], .error .eof) := by
    unfold lexParagraphOrDirective
    rw [eatWhitespace_allSpace rest hws]
  have hpb : parseBody rest d.Text = .ok (d.Text ++ []) := parseBody_eof rest d.Text [] hpod
  refine ⟨?_, hparts⟩
  simp only [Parse, h, hpb, List.append_nil]
  rw [htext]
  have hpt : parseText ([] : List DocumentElement) = [] := parseTextGo_nil 0
  rw [hpt]
  rw [← hparts, ← htext]

/-- Witness for C9 at the concrete metadata-only input ending in `@begin`. -/
theorem parse_emptyBody_witness :
    Parse ("@type shortStory\n@title T\n@authorByline A\n@begin\n".toList) =
      .ok { Title := "T", Author := { Byline := "A" } } ∧
    ({ Title := "T", Author := { Byline := "A" } } : Document).Parts = [] :=
  parse_emptyBody ("@type shortStory\n@title T\n@authorByline A\n@begin\n".toList)
    { Title := "T", Author := { Byline := "A" } } ['\n']
    (by rw [← lexMetadataEval_eq]; decide) (by decide)

/-- Claim C10: an emphasis delimiter reached with an empty buffer still
flushes a run: a zero-length run carrying the prior emphasis state is
appended before the toggle is applied. -/
theorem lexParagraph_emptyBufferFlush (b i : Bool) (c : Char) (s' : List Char)
    (es : List DocumentElement) (hc : ¬c = '*') :
    lexParagraph ('*' :: c :: s') [] b i es
        = lexParagraph (c :: s') [] b (!i) (es ++ [formatText [] b i]) ∧
    (formatText [] b i = .plainText "" ∨ formatText [] b i = .italicText ""
      ∨ formatText [] b i = .boldText "" ∨ formatText [] b i = .boldItalicText "") :=
  ⟨lexParagraph_star1 c s' [] b i es hc, by cases b <;> cases i <;> decide⟩

/-- Witness for C10 at the plain prior state with following character 'y'. -/
theorem lexParagraph_emptyBufferFlush_witness :
    lexParagraph ('*' :: 'y' :: []) [] false false []
        = lexParagraph ('y' :: []) [] false (!false) ([] ++ [formatText [] false false]) ∧
    (formatText [] false false = .plainText ""
      ∨ formatText [] false false = .italicText ""
      ∨ formatText [] false false = .boldText ""
      ∨ formatText [] false false = .boldItalicText "") :=
  lexParagraph_emptyBufferFlush false false 'y' [] [] (by decide)

/-! ### Non-empty-scene invariants for claim C4 -/

theorem parseSceneParas_fst_ne (e₀ : DocumentElement) (t : List DocumentElement) :
    (parseSceneParas (e₀ :: t)).1 ≠ [] := by
  cases hrest : (parseParagraph (e₀ :: t)).2 with
  | nil => rw [parseSceneParas_stop e₀ t hrest]; simp
  | cons e rest' =>
    by_cases hsb : e = DocumentElement.sceneBreak
    · subst hsb
      rw [parseSceneParas_scene e₀ t rest' hrest]
      simp
    · by_cases hb3 : isBreak3 e = true
      · rw [parseSceneParas_break3 e₀ t e rest' hrest hsb hb3]
        simp
      · rw [parseSceneParas_cont e₀ t e rest' hrest hsb (by simpa using hb3)]
        simp

theorem parseScene_paragraphs_ne (e₀ : DocumentElement) (t : List DocumentElement) :
    (parseScene (e₀ :: t)).1.Paragraphs ≠ [] :=
  parseSceneParas_fst_ne e₀ t

theorem parseChapterScenesFuel_paras : ∀ (fuel : Nat) (t : List DocumentElement),
    ∀ sc ∈ (parseChapterScenesFuel fuel t).1, sc.Paragraphs ≠ [] := by
  intro fuel
  induction fuel with
  | zero => intro t sc hsc; simp [parseChapterScenesFuel] at hsc
  | succ n ih =>
    intro t sc hsc
    match t with
    | [] => simp [parseChapterScenesFuel] at hsc
    | e₀ :: ts =>
      cases hrest : (parseSceneEval (e₀ :: ts)).2 with
      | nil =>
        simp only [parseChapterScenesFuel, hrest, List.mem_singleton] at hsc
        subst hsc
        rw [parseSceneEval_eq]
        exact parseScene_paragraphs_ne e₀ ts
      | cons e rest' =>
        by_cases hb3 : isBreak3 e = true
        · simp only [parseChapterScenesFuel, hrest, if_pos hb3, List.mem_singleton] at hsc
          subst hsc
          rw [parseSceneEval_eq]
          exact parseScene_paragraphs_ne e₀ ts
        · simp only [parseChapterScenesFuel, hrest, if_neg hb3, List.mem_cons] at hsc
          rcases hsc with hsc | hsc
          · subst hsc
            rw [parseSceneEval_eq]
            exact parseScene_paragraphs_ne e₀ ts
          · exact ih (e :: rest') sc hsc

theorem parseChapterScenes_paras (t : List DocumentElement) :
    ∀ sc ∈ (parseChapterScenes t).1, sc.Paragraphs ≠ [] := by
  rw [← parseChapterScenesFuel_eq (t.length + 1) t (Nat.lt_succ_self _)]
  exact parseChapterScenesFuel_paras (t.length + 1) t

theorem parseChapter_paras : ∀ (t : List DocumentElement),
    ∀ sc ∈ (parseChapter t).1.Scenes, sc.Paragraphs ≠ [] := by
  intro t
  match t with
  | [] => exact parseChapterScenes_paras []
  | .prologueBreak ti :: ts => exact parseChapterScenes_paras ts
  | .chapterBreak ti :: ts => exact parseChapterScenes_paras ts
  | .paragraphBreak :: ts => exact parseChapterScenes_paras _
  | .sceneBreak :: ts => exact parseChapterScenes_paras _
  | .partBreak ti :: ts => exact parseChapterScenes_paras _
  | .plainText s :: ts => exact parseChapterScenes_paras _
  | .italicText s :: ts => exact parseChapterScenes_paras _
  | .boldText s :: ts => exact parseChapterScenes_paras _
  | .boldItalicText s :: ts => exact parseChapterScenes_paras _

theorem numberChapter_Scenes (c : Chapter) (cn pn : Nat) :
    (numberChapter c cn pn).Scenes = c.Scenes := rfl

theorem parsePartChaptersFuel_paras : ∀ (fuel : Nat) (t : List DocumentElement) (cn pn : Nat),
    ∀ c ∈ (parsePartChaptersFuel fuel t cn pn).1, ∀ sc ∈ c.Scenes, sc.Paragraphs ≠ [] := by
  intro fuel
  induction fuel with
  | zero => intro t cn pn c hc; simp [parsePartChaptersFuel] at hc
  | succ n ih =>
    intro t cn pn c hc
    match t with
    | [] => simp [parsePartChaptersFuel] at hc
    | e₀ :: ts =>
      cases hrest : (parseChapterEval (e₀ :: ts)).2 with
      | nil =>
        simp only [parsePartChaptersFuel, hrest, List.mem_singleton] at hc
        subst hc
        rw [numberChapter_Scenes, parseChapterEval_eq]
        exact parseChapter_paras (e₀ :: ts)
      | cons e rest' =>
        by_cases hpb : isPartBreak e = true
        · simp only [parsePartChaptersFuel, hrest, if_pos hpb, List.mem_singleton] at hc
          subst hc
          rw [numberChapter_Scenes, parseChapterEval_eq]
          exact parseChapter_paras (e₀ :: ts)
        · simp only [parsePartChaptersFuel, hrest, if_neg hpb, List.mem_cons] at hc
          rcases hc with hc | hc
          · subst hc
            rw [numberChapter_Scenes, parseChapterEval_eq]
            exact parseChapter_paras (e₀ :: ts)
          · exact ih (e :: rest') _ _ c hc

theorem parsePartChapters_paras (t : List DocumentElement) (cn pn : Nat) :
    ∀ c ∈ (parsePartChapters t cn pn).1, ∀ sc ∈ c.Scenes, sc.Paragraphs ≠ [] := by
  rw [← parsePartChaptersFuel_eq (t.length + 1) t cn pn (Nat.lt_succ_self _)]
  exact parsePartChaptersFuel_paras (t.length + 1) t cn pn

theorem parsePart_paras : ∀ (t : List DocumentElement),
    ∀ c ∈ (parsePart t).1.Chapters, ∀ sc ∈ c.Scenes, sc.Paragraphs ≠ [] := by
  intro t
  match t with
  | [] => exact parsePartChapters_paras [] 0 0
  | .partBreak ti :: ts => exact parsePartChapters_paras ts 0 0
  | .paragraphBreak :: ts => exact parsePartChapters_paras _ 0 0
  | .sceneBreak :: ts => exact parsePartChapters_paras _ 0 0
  | .prologueBreak ti :: ts => exact parsePartChapters_paras _ 0 0
  | .chapterBreak ti :: ts => exact parsePartChapters_paras _ 0 0
  | .plainText s :: ts => exact parsePartChapters_paras _ 0 0
  | .italicText s :: ts => exact parsePartChapters_paras _ 0 0
  | .boldText s :: ts => exact parsePartChapters_paras _ 0 0
  | .boldItalicText s :: ts => exact parsePartChapters_paras _ 0 0

theorem parseTextGoFuel_nil : ∀ (fuel n : Nat), parseTextGoFuel fuel [] n = [] := by
  intro fuel n
  cases fuel <;> rfl

theorem parseTextGoFuel_paras : ∀ (fuel : Nat) (t : List DocumentElement) (n : Nat),
    ∀ p ∈ parseTextGoFuel fuel t n, ∀ c ∈ p.Chapters, ∀ sc ∈ c.Scenes,
      sc.Paragraphs ≠ [] := by
  intro fuel
  induction fuel with
  | zero => intro t n p hp; simp [parseTextGoFuel] at hp
  | succ m ih =>
    intro t n p hp
    match t with
    | [] => simp [parseTextGoFuel] at hp
    | e₀ :: ts =>
      simp only [parseTextGoFuel, List.mem_cons] at hp
      rcases hp with hp | hp
      · subst hp
        show ∀ c ∈ (parsePartEval (e₀ :: ts)).1.Chapters, _
        rw [parsePartEval_eq]
        exact parsePart_paras (e₀ :: ts)
      · exact ih _ _ p hp

theorem parseText_paras (text : List DocumentElement) :
    ∀ p ∈ parseText text, ∀ c ∈ p.Chapters, ∀ sc ∈ c.Scenes, sc.Paragraphs ≠ [] := by
  rw [← parseTextEval_eq]
  exact parseTextGoFuel_paras (text.length + 1) text 0

/-- Scene-level non-emptiness of a built part list: every scene of every
chapter of every part holds at least one paragraph. -/
def sceneParagraphsNonempty (ps : List Part) : Bool :=
  ps.all fun p => p.Chapters.all fun c => c.Scenes.all fun sc => !sc.Paragraphs.isEmpty

/-- Counterexample to claim C4: the structure builder does materialize empty
containers — a lone part break builds a Part with no Chapters, and a lone
scene break builds a Paragraph with no Runs. -/
theorem parseText_emptyContainers_cex :
    parseText [DocumentElement.partBreak "P"]
      = [{ Title := "P", Number := 1, Chapters := [] }] ∧
    parseText [DocumentElement.sceneBreak]
      = [{ Anonymous := true,
           Chapters := [{ Anonymous := true,
                          Scenes := [{ EndsWithSceneBreak := true,
                                       Paragraphs := [{ Text := [] }] }] }] }] := by
  constructor <;> (rw [← parseTextEval_eq]; decide)

/-- Claim C4 (amended): the builder guarantees only scene-level
non-emptiness: every Scene of the built tree holds at least one Paragraph,
and a nonempty element sequence yields at least one Part.  (Parts with no
chapters, chapters with no scenes and paragraphs with no runs can be
materialized.) -/
theorem parseText_nonempty_amended : ∀ (text : List DocumentElement),
    (sceneParagraphsNonempty (parseText text)
      && (text.isEmpty || !(parseText text).isEmpty)) = true := by
  intro text
  rw [Bool.and_eq_true]
  constructor
  · simp only [sceneParagraphsNonempty, List.all_eq_true]
    intro p hp c hc sc hsc
    show (!sc.Paragraphs.isEmpty) = true
    cases hpa : sc.Paragraphs with
    | nil => exact absurd hpa (parseText_paras text p hp c hc sc hsc)
    | cons a l => rfl
  · cases text with
    | nil => rfl
    | cons e₀ ts =>
      simp only [parseText]
      rw [parseTextGo_cons]
      rfl

/-! ### Numbering invariants for claim C1 -/

theorem numberChapter_Anonymous (c : Chapter) (cn pn : Nat) :
    (numberChapter c cn pn).Anonymous = c.Anonymous := rfl

theorem parseChapter_anonPrologue : ∀ (t : List DocumentElement),
    (parseChapter t).1.Anonymous = true → (parseChapter t).1.Prologue = false := by
  intro t
  match t with
  | [] => intro _; rfl
  | .prologueBreak ti :: ts => intro h; exact Bool.noConfusion h
  | .chapterBreak ti :: ts => intro _; rfl
  | .paragraphBreak :: ts => intro _; rfl
  | .sceneBreak :: ts => intro _; rfl
  | .partBreak ti :: ts => intro _; rfl
  | .plainText s :: ts => intro _; rfl
  | .italicText s :: ts => intro _; rfl
  | .boldText s :: ts => intro _; rfl
  | .boldItalicText s :: ts => intro _; rfl

theorem isBreak3_cases (e : DocumentElement) (h : isBreak3 e = true) :
    (∃ ti, e = DocumentElement.prologueBreak ti)
      ∨ (∃ ti, e = DocumentElement.chapterBreak ti)
      ∨ (∃ ti, e = DocumentElement.partBreak ti) := by
  cases e with
  | prologueBreak ti => exact Or.inl ⟨ti, rfl⟩
  | chapterBreak ti => exact Or.inr (Or.inl ⟨ti, rfl⟩)
  | partBreak ti => exact Or.inr (Or.inr ⟨ti, rfl⟩)
  | paragraphBreak => exact Bool.noConfusion h
  | sceneBreak => exact Bool.noConfusion h
  | plainText s => exact Bool.noConfusion h
  | italicText s => exact Bool.noConfusion h
  | boldText s => exact Bool.noConfusion h
  | boldItalicText s => exact Bool.noConfusion h

theorem isPartBreak_cases (e : DocumentElement) (h : isPartBreak e = true) :
    ∃ ti, e = DocumentElement.partBreak ti := by
  cases e with
  | partBreak ti => exact ⟨ti, rfl⟩
  | paragraphBreak => exact Bool.noConfusion h
  | sceneBreak => exact Bool.noConfusion h
  | prologueBreak ti => exact Bool.noConfusion h
  | chapterBreak ti => exact Bool.noConfusion h
  | plainText s => exact Bool.noConfusion h
  | italicText s => exact Bool.noConfusion h
  | boldText s => exact Bool.noConfusion h
  | boldItalicText s => exact Bool.noConfusion h

theorem parseChapterScenesFuel_rest : ∀ (fuel : Nat) (t : List DocumentElement),
    (parseChapterScenesFuel fuel t).2 = []
      ∨ (∃ ti ts', (parseChapterScenesFuel fuel t).2 = DocumentElement.prologueBreak ti :: ts')
      ∨ (∃ ti ts', (parseChapterScenesFuel fuel t).2 = DocumentElement.chapterBreak ti :: ts')
      ∨ (∃ ti ts', (parseChapterScenesFuel fuel t).2 = DocumentElement.partBreak ti :: ts') := by
  intro fuel
  induction fuel with
  | zero => intro t; exact Or.inl rfl
  | succ n ih =>
    intro t
    match t with
    | [] => exact Or.inl rfl
    | e₀ :: ts =>
      cases hrest : (parseSceneEval (e₀ :: ts)).2 with
      | nil =>
        simp only [parseChapterScenesFuel, hrest]
        exact Or.inl trivial
      | cons e rest' =>
        by_cases hb3 : isBreak3 e = true
        · simp only [parseChapterScenesFuel, hrest, if_pos hb3]
          rcases isBreak3_cases e hb3 with ⟨ti, rfl⟩ | ⟨ti, rfl⟩ | ⟨ti, rfl⟩
          · exact Or.inr (Or.inl ⟨ti, rest', rfl⟩)
          · exact Or.inr (Or.inr (Or.inl ⟨ti, rest', rfl⟩))
          · exact Or.inr (Or.inr (Or.inr ⟨ti, rest', rfl⟩))
        · simp only [parseChapterScenesFuel, hrest, if_neg hb3]
          exact ih (e :: rest')

theorem parseChapterScenes_rest (t : List DocumentElement) :
    (parseChapterScenes t).2 = []
      ∨ (∃ ti ts', (parseChapterScenes t).2 = DocumentElement.prologueBreak ti :: ts')
      ∨ (∃ ti ts', (parseChapterScenes t).2 = DocumentElement.chapterBreak ti :: ts')
      ∨ (∃ ti ts', (parseChapterScenes t).2 = DocumentElement.partBreak ti :: ts') := by
  rw [← parseChapterScenesFuel_eq (t.length + 1) t (Nat.lt_succ_self _)]
  exact parseChapterScenesFuel_rest (t.length + 1) t

theorem parseChapter_rest_shape : ∀ (t : List DocumentElement),
    (parseChapter t).2 = []
      ∨ (∃ ti ts', (parseChapter t).2 = DocumentElement.prologueBreak ti :: ts')
      ∨ (∃ ti ts', (parseChapter t).2 = DocumentElement.chapterBreak ti :: ts')
      ∨ (∃ ti ts', (parseChapter t).2 = DocumentElement.partBreak ti :: ts') := by
  intro t
  match t with
  | [] => exact parseChapterScenes_rest []
  | .prologueBreak ti :: ts => exact parseChapterScenes_rest ts
  | .chapterBreak ti :: ts => exact parseChapterScenes_rest ts
  | .paragraphBreak :: ts => exact parseChapterScenes_rest _
  | .sceneBreak :: ts => exact parseChapterScenes_rest _
  | .partBreak ti :: ts => exact parseChapterScenes_rest _
  | .plainText s :: ts => exact parseChapterScenes_rest _
  | .italicText s :: ts => exact parseChapterScenes_rest _
  | .boldText s :: ts => exact parseChapterScenes_rest _
  | .boldItalicText s :: ts => exact parseChapterScenes_rest _

/-- The running chapter/prologue counter invariant of `parsePart`'s loop. -/
def chaptersOkFrom : List Chapter → Nat → Nat → Prop
  | [], _, _ => True
  | c :: rest, cn, pn =>
    c.Number = (if c.Prologue = true then nextPrologueNumber c pn else nextChapterNumber c cn) ∧
    (c.Anonymous = true → c.Prologue = false) ∧
    chaptersOkFrom rest (nextChapterNumber c cn) (nextPrologueNumber c pn)

theorem chaptersOkFrom_cons (c : Chapter) (rest : List Chapter) (cn pn : Nat) :
    chaptersOkFrom (c :: rest) cn pn ↔
      (c.Number = (if c.Prologue = true then nextPrologueNumber c pn
          else nextChapterNumber c cn) ∧
       (c.Anonymous = true → c.Prologue = false) ∧
       chaptersOkFrom rest (nextChapterNumber c cn) (nextPrologueNumber c pn)) := Iff.rfl

theorem parsePartChaptersFuel_okFrom : ∀ (fuel : Nat) (t : List DocumentElement) (cn pn : Nat),
    chaptersOkFrom (parsePartChaptersFuel fuel t cn pn).1 cn pn := by
  intro fuel
  induction fuel with
  | zero => intro t cn pn; exact trivial
  | succ n ih =>
    intro t cn pn
    match t with
    | [] => exact trivial
    | e₀ :: ts =>
      have hap : (parseChapterEval (e₀ :: ts)).1.Anonymous = true →
          (parseChapterEval (e₀ :: ts)).1.Prologue = false := by
        rw [parseChapterEval_eq]
        exact parseChapter_anonPrologue (e₀ :: ts)
      cases hrest : (parseChapterEval (e₀ :: ts)).2 with
      | nil =>
        simp only [parsePartChaptersFuel, hrest]
        exact ⟨rfl, hap, True.intro⟩
      | cons e rest' =>
        by_cases hpb : isPartBreak e = true
        · simp only [parsePartChaptersFuel, hrest, if_pos hpb]
          exact ⟨rfl, hap, True.intro⟩
        · simp only [parsePartChaptersFuel, hrest, if_neg hpb]
          exact ⟨rfl, hap, ih (e :: rest') _ _⟩

theorem parsePartChaptersFuel_nonAnon : ∀ (fuel : Nat) (t : List DocumentElement) (cn pn : Nat),
    (parseChapter t).1.Anonymous = false →
    ∀ c ∈ (parsePartChaptersFuel fuel t cn pn).1, c.Anonymous = false := by
  intro fuel
  induction fuel with
  | zero => intro t cn pn _ c hc; simp [parsePartChaptersFuel] at hc
  | succ n ih =>
    intro t cn pn hanon c hc
    match t with
    | [] => simp [parsePartChaptersFuel] at hc
    | e₀ :: ts =>
      cases hrest : (parseChapterEval (e₀ :: ts)).2 with
      | nil =>
        simp only [parsePartChaptersFuel, hrest, List.mem_singleton] at hc
        subst hc
        rw [numberChapter_Anonymous, parseChapterEval_eq]
        exact hanon
      | cons e rest' =>
        by_cases hpb : isPartBreak e = true
        · simp only [parsePartChaptersFuel, hrest, if_pos hpb, List.mem_singleton] at hc
          subst hc
          rw [numberChapter_Anonymous, parseChapterEval_eq]
          exact hanon
        · simp only [parsePartChaptersFuel, hrest, if_neg hpb, List.mem_cons] at hc
          rcases hc with hc | hc
          · subst hc
            rw [numberChapter_Anonymous, parseChapterEval_eq]
            exact hanon
          · have hsh := parseChapter_rest_shape (e₀ :: ts)
            rw [← parseChapterEval_eq, hrest] at hsh
            rcases hsh with hsh | ⟨ti, ts2, hsh⟩ | ⟨ti, ts2, hsh⟩ | ⟨ti, ts2, hsh⟩
            · exact absurd hsh (by simp)
            · have he : e = DocumentElement.prologueBreak ti ∧ rest' = ts2 := by
                simpa using hsh
              refine ih (e :: rest') _ _ ?_ c hc
              rw [he.1]
              rfl
            · have he : e = DocumentElement.chapterBreak ti ∧ rest' = ts2 := by
                simpa using hsh
              refine ih (e :: rest') _ _ ?_ c hc
              rw [he.1]
              rfl
            · have he : e = DocumentElement.partBreak ti ∧ rest' = ts2 := by
                simpa using hsh
              rw [he.1] at hpb
              exact absurd rfl hpb

theorem parsePartChaptersFuel_consTail (fuel : Nat) (t : List DocumentElement) (cn pn : Nat)
    (c₀ : Chapter) (cs' : List Chapter)
    (heq : (parsePartChaptersFuel fuel t cn pn).1 = c₀ :: cs') :
    ∀ c ∈ cs', c.Anonymous = false := by
  intro c hc
  cases fuel with
  | zero => exact List.noConfusion heq
  | succ n =>
    cases t with
    | nil => exact List.noConfusion heq
    | cons e₀ ts =>
      cases hrest : (parseChapterEval (e₀ :: ts)).2 with
      | nil =>
        simp only [parsePartChaptersFuel, hrest] at heq
        have h2 : ([] : List Chapter) = cs' := congrArg List.tail heq
        rw [← h2] at hc
        exact absurd hc (by simp)
      | cons e rest' =>
        by_cases hpb : isPartBreak e = true
        · simp only [parsePartChaptersFuel, hrest, if_pos hpb] at heq
          have h2 : ([] : List Chapter) = cs' := congrArg List.tail heq
          rw [← h2] at hc
          exact absurd hc (by simp)
        · simp only [parsePartChaptersFuel, hrest, if_neg hpb] at heq
          have h2 : (parsePartChaptersFuel n (e :: rest')
              (nextChapterNumber (parseChapterEval (e₀ :: ts)).1 cn)
              (nextPrologueNumber (parseChapterEval (e₀ :: ts)).1 pn)).1 = cs' :=
            congrArg List.tail heq
          rw [← h2] at hc
          have hsh := parseChapter_rest_shape (e₀ :: ts)
          rw [← parseChapterEval_eq, hrest] at hsh
          rcases hsh with hsh | ⟨ti, ts2, hsh⟩ | ⟨ti, ts2, hsh⟩ | ⟨ti, ts2, hsh⟩
          · exact absurd hsh (by simp)
          · have he : e = DocumentElement.prologueBreak ti ∧ rest' = ts2 := by
              simpa using hsh
            refine parsePartChaptersFuel_nonAnon n (e :: rest') _ _ ?_ c hc
            rw [he.1]
            rfl
          · have he : e = DocumentElement.chapterBreak ti ∧ rest' = ts2 := by
              simpa using hsh
            refine parsePartChaptersFuel_nonAnon n (e :: rest') _ _ ?_ c hc
            rw [he.1]
            rfl
          · have he : e = DocumentElement.partBreak ti ∧ rest' = ts2 := by
              simpa using hsh
            rw [he.1] at hpb
            exact absurd rfl hpb

theorem chaptersOkFrom_ranges : ∀ (cs : List Chapter) (cn pn : Nat),
    chaptersOkFrom cs cn pn →
    ((cs.filter fun c => !c.Anonymous && !c.Prologue).map Chapter.Number
        = List.range' (cn + 1) ((cs.filter fun c => !c.Anonymous && !c.Prologue).length)) ∧
    ((cs.filter fun c => c.Prologue).map Chapter.Number
        = List.range' (pn + 1) ((cs.filter fun c => c.Prologue).length)) := by
  intro cs
  induction cs with
  | nil => intro cn pn _; exact ⟨rfl, rfl⟩
  | cons c rest ih =>
    intro cn pn h
    rw [chaptersOkFrom_cons] at h
    obtain ⟨hnum, hap, hrest⟩ := h
    cases hp : c.Prologue with
    | true =>
      have hna : c.Anonymous = false := by
        cases ha : c.Anonymous
        · rfl
        · rw [hap ha] at hp
          exact Bool.noConfusion hp
      have hcn : nextChapterNumber c cn = cn := by simp [nextChapterNumber, hp]
      have hpn : nextPrologueNumber c pn = pn + 1 := by simp [nextPrologueNumber, hp, hna]
      rw [hcn, hpn] at hrest
      have hih := ih cn (pn + 1) hrest
      have hcnum : c.Number = pn + 1 := by
        rw [hnum, if_pos hp]
        exact hpn
      constructor
      · simp only [List.filter_cons, hp, hna, Bool.not_true, Bool.and_false, Bool.false_eq_true,
          if_false]
        exact hih.1
      · simp only [List.filter_cons, hp, if_true]
        rw [List.map_cons, List.length_cons, List.range'_succ, hcnum, hih.2]
    | false =>
      cases ha : c.Anonymous with
      | true =>
        have hcn : nextChapterNumber c cn = cn := by simp [nextChapterNumber, ha]
        have hpn : nextPrologueNumber c pn = pn := by simp [nextPrologueNumber, ha]
        rw [hcn, hpn] at hrest
        have hih := ih cn pn hrest
        constructor
        · simp only [List.filter_cons, ha, Bool.not_true, Bool.false_and, Bool.false_eq_true,
            if_false]
          exact hih.1
        · simp only [List.filter_cons, hp, Bool.false_eq_true, if_false]
          exact hih.2
      | false =>
        have hcn : nextChapterNumber c cn = cn + 1 := by simp [nextChapterNumber, hp, ha]
        have hpn : nextPrologueNumber c pn = pn := by simp [nextPrologueNumber, hp]
        rw [hcn, hpn] at hrest
        have hih := ih (cn + 1) pn hrest
        have hcnum : c.Number = cn + 1 := by
          rw [hnum, if_neg (by rw [hp]; exact Bool.false_ne_true)]
          exact hcn
        constructor
        · simp only [List.filter_cons, ha, hp, Bool.not_false, Bool.and_self, if_true]
          rw [List.map_cons, List.length_cons, List.range'_succ, hcnum, hih.1]
        · simp only [List.filter_cons, hp, Bool.false_eq_true, if_false]
          exact hih.2

/-- Per-part chapter numbering: both counters start at zero, non-anonymous
chapters and prologues are numbered 1..N by their own counters, anonymous
chapters carry 0. -/
def chapterNumbersOk (cs : List Chapter) : Prop :=
  ((cs.filter fun c => !c.Anonymous && !c.Prologue).map Chapter.Number
      = List.range' 1 ((cs.filter fun c => !c.Anonymous && !c.Prologue).length)) ∧
  ((cs.filter fun c => c.Prologue).map Chapter.Number
      = List.range' 1 ((cs.filter fun c => c.Prologue).length)) ∧
  ∀ c ∈ cs, c.Anonymous = true → c.Number = 0

theorem parsePartChapters_chapterNumbersOk (u : List DocumentElement) :
    chapterNumbersOk (parsePartChapters u 0 0).1 := by
  have hok : chaptersOkFrom (parsePartChapters u 0 0).1 0 0 := by
    rw [← parsePartChaptersFuel_eq (u.length + 1) u 0 0 (Nat.lt_succ_self _)]
    exact parsePartChaptersFuel_okFrom (u.length + 1) u 0 0
  have hbr := chaptersOkFrom_ranges (parsePartChapters u 0 0).1 0 0 hok
  refine ⟨hbr.1, hbr.2, ?_⟩
  intro c hc hanon
  cases hcs : (parsePartChapters u 0 0).1 with
  | nil =>
    rw [hcs] at hc
    exact absurd hc (by simp)
  | cons c₀ cs' =>
    rw [hcs] at hc hok
    rw [chaptersOkFrom_cons] at hok
    obtain ⟨hnum, hap, -⟩ := hok
    rcases List.mem_cons.mp hc with rfl | hmem
    · rw [hnum, hap hanon]
      simp [nextChapterNumber, hanon]
    · have htail : ∀ q ∈ cs', q.Anonymous = false := by
        apply parsePartChaptersFuel_consTail (u.length + 1) u 0 0 c₀ cs'
        rw [parsePartChaptersFuel_eq (u.length + 1) u 0 0 (Nat.lt_succ_self _), hcs]
      rw [htail c hmem] at hanon
      exact Bool.noConfusion hanon

theorem parsePart_chapterNumbersOk : ∀ (t : List DocumentElement),
    chapterNumbersOk (parsePart t).1.Chapters := by
  intro t
  match t with
  | [] => exact parsePartChapters_chapterNumbersOk []
  | .partBreak ti :: ts => exact parsePartChapters_chapterNumbersOk ts
  | .paragraphBreak :: ts => exact parsePartChapters_chapterNumbersOk _
  | .sceneBreak :: ts => exact parsePartChapters_chapterNumbersOk _
  | .prologueBreak ti :: ts => exact parsePartChapters_chapterNumbersOk _
  | .chapterBreak ti :: ts => exact parsePartChapters_chapterNumbersOk _
  | .plainText s :: ts => exact parsePartChapters_chapterNumbersOk _
  | .italicText s :: ts => exact parsePartChapters_chapterNumbersOk _
  | .boldText s :: ts => exact parsePartChapters_chapterNumbersOk _
  | .boldItalicText s :: ts => exact parsePartChapters_chapterNumbersOk _

/-- The running part counter invariant of `parseText`'s loop. -/
def partsOkFrom : List Part → Nat → Prop
  | [], _ => True
  | p :: rest, n => p.Number = nextPartNumber p n ∧ partsOkFrom rest (nextPartNumber p n)

theorem partsOkFrom_cons (p : Part) (rest : List Part) (n : Nat) :
    partsOkFrom (p :: rest) n ↔
      (p.Number = nextPartNumber p n ∧ partsOkFrom rest (nextPartNumber p n)) := Iff.rfl

theorem parseTextGoFuel_okFrom : ∀ (fuel : Nat) (t : List DocumentElement) (n : Nat),
    partsOkFrom (parseTextGoFuel fuel t n) n := by
  intro fuel
  induction fuel with
  | zero => intro t n; exact trivial
  | succ m ih =>
    intro t n
    match t with
    | [] => exact trivial
    | e₀ :: ts =>
      simp only [parseTextGoFuel]
      exact ⟨rfl, ih _ _⟩

theorem parsePartChaptersFuel_rest : ∀ (fuel : Nat) (t : List DocumentElement) (cn pn : Nat),
    (parsePartChaptersFuel fuel t cn pn).2 = []
      ∨ ∃ ti ts', (parsePartChaptersFuel fuel t cn pn).2
          = DocumentElement.partBreak ti :: ts' := by
  intro fuel
  induction fuel with
  | zero => intro t cn pn; exact Or.inl rfl
  | succ n ih =>
    intro t cn pn
    match t with
    | [] => exact Or.inl rfl
    | e₀ :: ts =>
      cases hrest : (parseChapterEval (e₀ :: ts)).2 with
      | nil =>
        simp only [parsePartChaptersFuel, hrest]
        exact Or.inl trivial
      | cons e rest' =>
        by_cases hpb : isPartBreak e = true
        · simp only [parsePartChaptersFuel, hrest, if_pos hpb]
          rcases isPartBreak_cases e hpb with ⟨ti, rfl⟩
          exact Or.inr ⟨ti, rest', rfl⟩
        · simp only [parsePartChaptersFuel, hrest, if_neg hpb]
          exact ih (e :: rest') _ _

theorem parsePartChapters_rest (u : List DocumentElement) (cn pn : Nat) :
    (parsePartChapters u cn pn).2 = []
      ∨ ∃ ti ts', (parsePartChapters u cn pn).2 = DocumentElement.partBreak ti :: ts' := by
  rw [← parsePartChaptersFuel_eq (u.length + 1) u cn pn (Nat.lt_succ_self _)]
  exact parsePartChaptersFuel_rest (u.length + 1) u cn pn

theorem parsePart_rest_shape : ∀ (t : List DocumentElement),
    (parsePart t).2 = []
      ∨ ∃ ti ts', (parsePart t).2 = DocumentElement.partBreak ti :: ts' := by
  intro t
  match t with
  | [] => exact parsePartChapters_rest [] 0 0
  | .partBreak ti :: ts => exact parsePartChapters_rest ts 0 0
  | .paragraphBreak :: ts => exact parsePartChapters_rest _ 0 0
  | .sceneBreak :: ts => exact parsePartChapters_rest _ 0 0
  | .prologueBreak ti :: ts => exact parsePartChapters_rest _ 0 0
  | .chapterBreak ti :: ts => exact parsePartChapters_rest _ 0 0
  | .plainText s :: ts => exact parsePartChapters_rest _ 0 0
  | .italicText s :: ts => exact parsePartChapters_rest _ 0 0
  | .boldText s :: ts => exact parsePartChapters_rest _ 0 0
  | .boldItalicText s :: ts => exact parsePartChapters_rest _ 0 0

theorem parseTextGoFuel_nonAnon : ∀ (fuel : Nat) (t : List DocumentElement) (n : Nat),
    (parsePart t).1.Anonymous = false →
    ∀ p ∈ parseTextGoFuel fuel t n, p.Anonymous = false := by
  intro fuel
  induction fuel with
  | zero => intro t n _ p hp; simp [parseTextGoFuel] at hp
  | succ m ih =>
    intro t n hanon p hp
    match t with
    | [] => simp [parseTextGoFuel] at hp
    | e₀ :: ts =>
      simp only [parseTextGoFuel, List.mem_cons] at hp
      rcases hp with hp | hp
      · subst hp
        show (parsePartEval (e₀ :: ts)).1.Anonymous = false
        rw [parsePartEval_eq]
        exact hanon
      · have hsh := parsePart_rest_shape (e₀ :: ts)
        rw [← parsePartEval_eq] at hsh
        rcases hsh with hsh | ⟨ti, ts2, hsh⟩
        · rw [hsh, parseTextGoFuel_nil] at hp
          exact absurd hp (by simp)
        · exact ih _ _ (by rw [← parsePartEval_eq, hsh]; rfl) p hp

theorem parseTextGoFuel_consTail (fuel : Nat) (t : List DocumentElement) (n : Nat)
    (p₀ : Part) (ps' : List Part) (heq : parseTextGoFuel fuel t n = p₀ :: ps') :
    ∀ p ∈ ps', p.Anonymous = false := by
  intro p hp
  cases fuel with
  | zero => exact List.noConfusion heq
  | succ m =>
    cases t with
    | nil => exact List.noConfusion heq
    | cons e₀ ts =>
      have htail : parseTextGoFuel m (parsePartEval (e₀ :: ts)).2
          (nextPartNumber (parsePartEval (e₀ :: ts)).1 n) = ps' := congrArg List.tail heq
      rw [← htail] at hp
      have hsh := parsePart_rest_shape (e₀ :: ts)
      rw [← parsePartEval_eq] at hsh
      rcases hsh with hsh | ⟨ti, ts2, hsh⟩
      · rw [hsh, parseTextGoFuel_nil] at hp
        exact absurd hp (by simp)
      · exact parseTextGoFuel_nonAnon m _ _ (by rw [← parsePartEval_eq, hsh]; rfl) p hp

theorem partsOkFrom_ranges : ∀ (ps : List Part) (n : Nat), partsOkFrom ps n →
    (ps.filter fun p => !p.Anonymous).map Part.Number
      = List.range' (n + 1) ((ps.filter fun p => !p.Anonymous).length) := by
  intro ps
  induction ps with
  | nil => intro n _; rfl
  | cons p rest ih =>
    intro n h
    rw [partsOkFrom_cons] at h
    obtain ⟨hnum, hrest⟩ := h
    cases ha : p.Anonymous with
    | true =>
      have hn : nextPartNumber p n = n := by simp [nextPartNumber, ha]
      rw [hn] at hrest
      simp only [List.filter_cons, ha, Bool.not_true, Bool.false_eq_true, if_false]
      exact ih n hrest
    | false =>
      have hn : nextPartNumber p n = n + 1 := by simp [nextPartNumber, ha]
      rw [hn] at hnum hrest
      have hih := ih (n + 1) hrest
      simp only [List.filter_cons, ha, Bool.not_false, if_true]
      rw [List.map_cons, List.length_cons, List.range'_succ, hnum, hih]

theorem parseTextGoFuel_chaptersShape : ∀ (fuel : Nat) (t : List DocumentElement) (n : Nat),
    ∀ p ∈ parseTextGoFuel fuel t n, ∃ u, p.Chapters = (parsePart u).1.Chapters := by
  intro fuel
  induction fuel with
  | zero => intro t n p hp; simp [parseTextGoFuel] at hp
  | succ m ih =>
    intro t n p hp
    match t with
    | [] => simp [parseTextGoFuel] at hp
    | e₀ :: ts =>
      simp only [parseTextGoFuel, List.mem_cons] at hp
      rcases hp with hp | hp
      · subst hp
        exact ⟨e₀ :: ts, by rw [← parsePartEval_eq]⟩
      · exact ih _ _ p hp

/-- Document-level part numbering: non-anonymous parts are numbered 1..N in
order and anonymous parts carry 0. -/
def partNumbersOk (ps : List Part) : Prop :=
  ((ps.filter fun p => !p.Anonymous).map Part.Number
      = List.range' 1 ((ps.filter fun p => !p.Anonymous).length)) ∧
  ∀ p ∈ ps, p.Anonymous = true → p.Number = 0

/-- The full numbering invariant of claim C1. -/
def numberingOk (ps : List Part) : Prop :=
  partNumbersOk ps ∧ ∀ p ∈ ps, chapterNumbersOk p.Chapters

/-- Claim C1: every built part list satisfies the numbering invariant —
non-anonymous parts are numbered 1..N gaplessly in document order, within
each part non-anonymous chapters and prologues are numbered 1..N by two
independent counters that reset at each part boundary, and anonymous parts
and chapters never consume a number and carry sequence number 0. -/
theorem parseText_numbering : ∀ (text : List DocumentElement),
    numberingOk (parseText text) := by
  intro text
  have hfe : parseTextGoFuel (text.length + 1) text 0 = parseText text :=
    parseTextGoFuel_eq (text.length + 1) text 0 (Nat.lt_succ_self _)
  have hok : partsOkFrom (parseText text) 0 := by
    rw [← hfe]
    exact parseTextGoFuel_okFrom (text.length + 1) text 0
  refine ⟨⟨partsOkFrom_ranges (parseText text) 0 hok, ?_⟩, ?_⟩
  · intro p hp hanon
    cases hps : parseText text with
    | nil =>
      rw [hps] at hp
      exact absurd hp (by simp)
    | cons p₀ ps' =>
      rw [hps] at hp hok
      rw [partsOkFrom_cons] at hok
      rcases List.mem_cons.mp hp with rfl | hmem
      · rw [hok.1]
        simp [nextPartNumber, hanon]
      · have htail : ∀ q ∈ ps', q.Anonymous = false := by
          apply parseTextGoFuel_consTail (text.length + 1) text 0 p₀ ps'
          rw [hfe, hps]
        rw [htail p hmem] at hanon
        exact Bool.noConfusion hanon
  · intro p hp
    have hsh : ∃ u, p.Chapters = (parsePart u).1.Chapters := by
      apply parseTextGoFuel_chaptersShape (text.length + 1) text 0 p
      rw [hfe]
      exact hp
    obtain ⟨u, hu⟩ := hsh
    rw [hu]
    exact parsePart_chapterNumbersOk u

end Manuscript
